import Mathlib

/-!
Shallow embedding of `dissect/squashfs/squashfs.py` (the SquashFS 4.x
reader) and proofs about it.

Conventions used throughout:
* The byte source (`fh`) is modelled as a total function `Nat → Nat`;
  every read goes through `byteAt`, which reduces values mod 256, so all
  bytes seen by the decoder are in `[0, 256)`.
* Byte strings are `List Nat`.  Python strings decoded with
  `errors="surrogateescape"` are in byte-preserving bijection with the
  underlying bytes, so names, link targets and textual paths are
  modelled directly as byte lists (`/` = 47, `.` = 46).
* The decompressor (the external `dissect.squashfs.compression` module,
  out of scope per the spec) is an opaque total function
  `decomp : List Nat → Nat → List Nat` (source bytes, output bound).
* The struct layouts come from `dissect/squashfs/c_squashfs.py`, which
  is part of this repository but not present under `src/`; those
  definitions are marked `Modelled from the spec:` below.
* Python `while` loops that the source does not bound are given an
  explicit fuel argument; fuel exhaustion is reported with the distinct
  error `FsError.fuelExhausted` (or truncation where noted), never with
  one of the source's own error kinds.
* `functools.lru_cache` over the pure methods is semantically
  transparent, so cached methods are modelled as pure functions; the
  cache *keying* itself (claim C3) is modelled explicitly by
  `SquashFS.read_block_cached`.
-/

/-- Modelled from the spec: constant `SQUASHFS_MAGIC` from `c_squashfs`
(absent from `src/`), the superblock magic `0x73717368`. -/
def SQUASHFS_MAGIC : Nat := 0x73717368

/-- Modelled from the spec: constant `SQUASHFS_METADATA_SIZE = 8192` from
`c_squashfs` (absent from `src/`). -/
def SQUASHFS_METADATA_SIZE : Nat := 8192

/-- Modelled from the spec: `SQUASHFS_COMPRESSED_BIT = 1 <<< 15`, the
flag bit in a metadata block's 16-bit length word (clear = compressed). -/
def SQUASHFS_COMPRESSED_BIT : Nat := 2 ^ 15

/-- Modelled from the spec: `SQUASHFS_COMPRESSED_BIT_BLOCK = 1 <<< 24`,
the flag bit in a data-block length value (clear = compressed). -/
def SQUASHFS_COMPRESSED_BIT_BLOCK : Nat := 2 ^ 24

/-- Modelled from the spec: invalid-block sentinel
`SQUASHFS_INVALID_BLK = 0xFFFF_FFFF_FFFF_FFFF`. -/
def SQUASHFS_INVALID_BLK : Nat := 0xFFFFFFFFFFFFFFFF

/-- Modelled from the spec: invalid-fragment sentinel
`SQUASHFS_INVALID_FRAG = 0xFFFF_FFFF`. -/
def SQUASHFS_INVALID_FRAG : Nat := 0xFFFFFFFF

/-- POSIX file-type bits from Python's `stat` module, used by `TYPE_MAP`. -/
def S_IFDIR : Nat := 0x4000

/-- POSIX regular-file type bits (`stat.S_IFREG`). -/
def S_IFREG : Nat := 0x8000

/-- POSIX symlink type bits (`stat.S_IFLNK`). -/
def S_IFLNK : Nat := 0xA000

/-- POSIX block-device type bits (`stat.S_IFBLK`). -/
def S_IFBLK : Nat := 0x6000

/-- POSIX character-device type bits (`stat.S_IFCHR`). -/
def S_IFCHR : Nat := 0x2000

/-- POSIX fifo type bits (`stat.S_IFIFO`). -/
def S_IFIFO : Nat := 0x1000

/-- POSIX socket type bits (`stat.S_IFSOCK`). -/
def S_IFSOCK : Nat := 0xC000

/-- Python `x & ~(1 <<< i)` on an unbounded int: clear bit `i` of `x`,
leaving every other bit unchanged. -/
def clearBit (i x : Nat) : Nat := if x.testBit i then x - 2 ^ i else x

/-- The error kinds raised by the reader (`dissect.squashfs.exceptions`
plus the builtin exceptions used in `squashfs.py`).  `tableIndex` stands
for the Python `IndexError` raised by a plain list subscript when an
indirection table is shorter than the computed bucket index, which is a
distinct failure from the explicit inode-number bounds check
(`indexOutOfRange`, spec kind IndexOutOfRange).  `fuelExhausted` marks
fuel running out in the model of an unbounded source loop. -/
inductive FsError where
  | invalidImage
  | unsupportedVersion
  | fileNotFound
  | notADirectory
  | notAFile
  | notASymlink
  | indexOutOfRange
  | tableIndex
  | fuelExhausted
deriving DecidableEq, Repr

/-- The superblock fields read by `SquashFS.__init__`
(`c_squashfs.squashfs_super_block`; layout from the spec, values here are
already-parsed integers). -/
structure SuperBlock where
  s_magic : Nat := 0
  s_major : Nat := 0
  s_minor : Nat := 0
  mkfs_time : Nat := 0
  block_size : Nat := 0
  block_log : Nat := 0
  flags : Nat := 0
  no_ids : Nat := 0
  inodes : Nat := 0
  fragments : Nat := 0
  compression : Nat := 0
  root_inode : Nat := 0
  bytes_used : Nat := 0
  id_table_start : Nat := 0
  inode_table_start : Nat := 0
  directory_table_start : Nat := 0
  fragment_table_start : Nat := 0
  lookup_table_start : Nat := 0
  xattr_id_table_start : Nat := 0
deriving DecidableEq, Repr

/-- Modelled from the spec: the decoded per-inode header
(`squashfs_base_inode_header` and its per-type extensions from
`c_squashfs`, absent from `src/`).  One record carries the union of the
fields the reader uses; fields not present for a given `inode_type` are
simply never consulted. -/
structure InodeHeader where
  inode_type : Nat := 0
  mode : Nat := 0
  uid : Nat := 0
  guid : Nat := 0
  mtime : Nat := 0
  inode_number : Nat := 0
  file_size : Nat := 0
  start_block : Nat := 0
  offset : Nat := 0
  fragment : Nat := 0
  symlink_size : Nat := 0
deriving DecidableEq, Repr

/-- The reader state built by `SquashFS.__init__`: the byte source `fh`
(as a total byte oracle), the parsed superblock, the decompressor
capability, and two oracles standing in for the `c_squashfs`-based inode
header decoding that is absent from `src/`: `headerOf` gives the parsed
header for the inode at a `(block, offset)` metadata address (the
`INode.header` cached property) and `headerLenOf` the byte length of the
per-type header struct there (`len(self.header)`). -/
structure SquashFS where
  disk : Nat → Nat
  decomp : List Nat → Nat → List Nat
  sb : SuperBlock
  headerOf : Nat → Nat → InodeHeader
  headerLenOf : Nat → Nat → Nat

/-- Read one byte of the underlying byte source. -/
def SquashFS.byteAt (sq : SquashFS) (pos : Nat) : Nat := sq.disk pos % 256

/-- Read `len` consecutive bytes at `pos` (`fh.seek(pos); fh.read(len)`). -/
def SquashFS.diskBytes (sq : SquashFS) (pos len : Nat) : List Nat :=
  (List.range len).map fun i => sq.byteAt (pos + i)

/-- Little-endian 16-bit integer from `l[i]`, `l[i+1]` (missing bytes 0). -/
def leU16At (l : List Nat) (i : Nat) : Nat := l.getD i 0 + 256 * l.getD (i + 1) 0

/-- Little-endian 32-bit integer from `l[i] .. l[i+3]`. -/
def leU32At (l : List Nat) (i : Nat) : Nat :=
  l.getD i 0 + 256 * l.getD (i + 1) 0 + 65536 * l.getD (i + 2) 0 + 16777216 * l.getD (i + 3) 0

/-- Little-endian 64-bit integer from `l[i] .. l[i+7]`
(`struct.unpack("<Q", data)`). -/
def leU64At (l : List Nat) (i : Nat) : Nat :=
  leU32At l i + 4294967296 * leU32At l (i + 4)

/-- Sign-extend a 16-bit value (the `int16` field of
`squashfs_dir_entry`). -/
def toSigned16 (n : Nat) : Int := if n < 32768 then (n : Int) else (n : Int) - 65536

/-- `SquashFS._read_block` (squashfs.py lines 130-154), as the pure
function the `lru_cache`d method computes.  With `length? = some l` this
is data-block mode: `compressed = (l & SQUASHFS_COMPRESSED_BIT_BLOCK) == 0`,
the real length is `l` with bit 24 cleared, and the payload starts at
`block`.  With `length? = none` this is metadata-block mode: a 16-bit
little-endian length word is read at `block`,
`compressed = (word & SQUASHFS_COMPRESSED_BIT) == 0`, the real length is
the word with bit 15 cleared, and the payload starts at `block + 2`.
In both modes the source hands a compressed payload to
`self._compression.decompress(data, self.block_size)` — the output bound
is `self.block_size` on both paths.  (The `RuntimeError` for a missing
decompressor cannot occur here because `decomp` is total.) -/
def SquashFS.read_block (sq : SquashFS) (block : Nat) (length? : Option Nat) :
    Nat × List Nat :=
  match length? with
  | some l =>
    let compressed := l &&& SQUASHFS_COMPRESSED_BIT_BLOCK = 0
    let len := clearBit 24 l
    let data := sq.diskBytes block len
    if compressed then (block + len, sq.decomp data sq.sb.block_size)
    else (block + len, data)
  | none =>
    let word := sq.byteAt block + 256 * sq.byteAt (block + 1)
    let compressed := word &&& SQUASHFS_COMPRESSED_BIT = 0
    let len := clearBit 15 word
    let data := sq.diskBytes (block + 2) len
    if compressed then (block + 2 + len, sq.decomp data sq.sb.block_size)
    else (block + 2 + len, data)

/-- Association-list lookup for the cache model (a Python dict hit test
on the memoization key). -/
def cacheLookup (k : Nat × Option Nat) :
    List ((Nat × Option Nat) × (Nat × List Nat)) → Option (Nat × List Nat)
  | [] => none
  | (k', v) :: rest => if k = k' then some v else cacheLookup k rest

/-- The `@lru_cache(1024)` wrapper around `_read_block`.  `functools`
builds the memoization key from the full argument tuple, so calls
`_read_block(b)` and `_read_block(b, l)` occupy *distinct* cache slots:
the key is `(block, length?)`, not `block` alone.  The capacity bound
and LRU eviction order do not affect which keys can hit and are omitted
(the cache only ever stores results of the pure `read_block`). -/
def SquashFS.read_block_cached (sq : SquashFS)
    (cache : List ((Nat × Option Nat) × (Nat × List Nat)))
    (block : Nat) (length? : Option Nat) :
    (Nat × List Nat) × List ((Nat × Option Nat) × (Nat × List Nat)) :=
  match cacheLookup (block, length?) cache with
  | some r => (r, cache)
  | none =>
    let r := sq.read_block block length?
    (r, ((block, length?), r) :: cache)

/-- `SquashFS._read_metadata` (squashfs.py lines 112-128): walk metadata
blocks from `block`, skip `offset` bytes of the first payload, and
concatenate until `length` bytes are collected; returns the resumption
cursor `(block, offset)` and the bytes.  The source's `while length:`
loop is not fuel-bounded; on fuel exhaustion (which cannot happen for
the inputs the repository produces when enough fuel is supplied) the
model returns the bytes collected so far.  `remaining` is computed in
`Int` because `len(data) - offset` may be negative in Python; every
in-repo caller passes a non-negative `length`, so `length : Nat`. -/
def SquashFS.read_metadata (sq : SquashFS) :
    Nat → Nat → Nat → Nat → Nat × Nat × List Nat
  | 0, block, offset, _ => (block, offset, [])
  | fuel + 1, block, offset, length =>
    if length = 0 then (block, offset, [])
    else
      let r := sq.read_block block none
      let data := r.2
      let remaining : Int := (data.length : Int) - (offset : Int)
      if remaining ≤ (length : Int) then
        let rec0 := sq.read_metadata fuel r.1 0 ((length : Int) - remaining).toNat
        (rec0.1, rec0.2.1, data.drop offset ++ rec0.2.2)
      else
        (block, offset + length, (data.drop offset).take length)

/-- `SquashFS._read_table` (squashfs.py lines 102-110): the eagerly
loaded array of absolute 64-bit block offsets anchoring an indirection
table (`c_squashfs.uint64[num_blocks](fh)` is `num_blocks` consecutive
little-endian 64-bit words). -/
def SquashFS.read_table (sq : SquashFS) (offset count entry_size : Nat) : List Nat :=
  if count = 0 ∨ offset = SQUASHFS_INVALID_BLK then []
  else
    let num_bytes := count * entry_size
    let num_blocks := (num_bytes + SQUASHFS_METADATA_SIZE - 1) / SQUASHFS_METADATA_SIZE
    (List.range num_blocks).map fun i => leU64At (sq.diskBytes (offset + 8 * i) 8) 0

/-- `self.lookup_table` as loaded in `__init__` (line 52);
`squashfs_fragment_entry` is 16 bytes. -/
def SquashFS.lookup_table (sq : SquashFS) : List Nat :=
  sq.read_table sq.sb.lookup_table_start sq.sb.inodes 8

/-- `self.fragment_table` as loaded in `__init__` (lines 53-55). -/
def SquashFS.fragment_table (sq : SquashFS) : List Nat :=
  sq.read_table sq.sb.fragment_table_start sq.sb.fragments 16

/-- `SquashFS._lookup_fragment` (squashfs.py lines 175-182): resolve a
fragment index to its `(start_block, size)` descriptor through the
fragment table.  `self.fragment_table[block]` raises `IndexError` in
Python when the bucket index is out of range; the model substitutes a
zero entry there (comment: no claim exercises that failure path), which
keeps the function total. -/
def SquashFS.lookup_fragment (sq : SquashFS) (fuel fragment : Nat) : Nat × Nat :=
  let fragment_offset := fragment * 16
  let block := fragment_offset / SQUASHFS_METADATA_SIZE
  let offset := fragment_offset % SQUASHFS_METADATA_SIZE
  let data := (sq.read_metadata fuel (sq.fragment_table.getD block 0) offset 16).2.2
  (leU64At data 0, leU32At data 8)

/-- `SquashFS._read_fragment` (squashfs.py lines 156-159). -/
def SquashFS.read_fragment (sq : SquashFS) (fuel fragment offset length : Nat) :
    List Nat :=
  let entry := sq.lookup_fragment fuel fragment
  let r := sq.read_block entry.1 (some entry.2)
  (r.2.drop offset).take length

/-- An inode handle (`INode.__init__`, squashfs.py lines 189-206): the
identity fields an `INode` object carries.  `name` is the raw byte
string (surrogate-escape decoding is byte-preserving), `itype` the
provisional type from a directory entry, `inum` the directory-derived
inode number (an `Int`: the entry delta is signed), and `parent` the
back-link.  Fields default to `none` exactly when the Python constructor
defaults them to `None`. -/
inductive INode where
  | mk (block : Nat) (offset : Nat) (name : Option (List Nat))
      (itype : Option Nat) (inum : Option Int) (parent : Option INode)

/-- The `block` field of an inode handle. -/
def INode.block : INode → Nat
  | .mk b _ _ _ _ _ => b

/-- The `offset` field of an inode handle. -/
def INode.offset : INode → Nat
  | .mk _ o _ _ _ _ => o

/-- The `name` field of an inode handle. -/
def INode.name : INode → Option (List Nat)
  | .mk _ _ n _ _ _ => n

/-- The provisional `_type` field of an inode handle. -/
def INode.itype : INode → Option Nat
  | .mk _ _ _ t _ _ => t

/-- The `_inode_number` field of an inode handle. -/
def INode.inum : INode → Option Int
  | .mk _ _ _ _ i _ => i

/-- The `parent` field of an inode handle. -/
def INode.parent : INode → Option INode
  | .mk _ _ _ _ _ p => p

/-- `INode.header`: the decoded header at
`(inode_table_start + block, offset)`, via the `headerOf` oracle (the
`cstruct` parsing lives in `c_squashfs`, absent from `src/`). -/
def INode.header (sq : SquashFS) (i : INode) : InodeHeader :=
  sq.headerOf i.block i.offset

/-- Modelled from the spec: `TYPE_MAP` from `c_squashfs` (absent from
`src/`), taking the on-disk `inode_type` tag (1-7 basic, 8-14 extended)
to POSIX `S_IF*` bits per the spec's variant table.  An unknown tag
raises `KeyError` in Python; the model returns 0 (no `S_IF*` value), a
case no claim exercises. -/
def TYPE_MAP (t : Nat) : Nat :=
  if t = 1 ∨ t = 8 then S_IFDIR
  else if t = 2 ∨ t = 9 then S_IFREG
  else if t = 3 ∨ t = 10 then S_IFLNK
  else if t = 4 ∨ t = 11 then S_IFBLK
  else if t = 5 ∨ t = 12 then S_IFCHR
  else if t = 6 ∨ t = 13 then S_IFIFO
  else if t = 7 ∨ t = 14 then S_IFSOCK
  else 0

/-- `INode.type` (squashfs.py lines 233-235):
`TYPE_MAP[self._type or self.header.inode_type]` — Python `or` falls
through on `None` *and* on `0`. -/
def INode.type (sq : SquashFS) (i : INode) : Nat :=
  TYPE_MAP (match i.itype with
    | some t => if t = 0 then (INode.header sq i).inode_type else t
    | none => (INode.header sq i).inode_type)

/-- `INode.is_dir`. -/
def INode.is_dir (sq : SquashFS) (i : INode) : Bool := INode.type sq i = S_IFDIR

/-- `INode.is_file`. -/
def INode.is_file (sq : SquashFS) (i : INode) : Bool := INode.type sq i = S_IFREG

/-- `INode.is_symlink`. -/
def INode.is_symlink (sq : SquashFS) (i : INode) : Bool := INode.type sq i = S_IFLNK

/-- `INode.size` (squashfs.py lines 257-262): `file_size` for
directories and regular files, `symlink_size` for symlinks, `None`
otherwise. -/
def INode.size (sq : SquashFS) (i : INode) : Option Nat :=
  if INode.is_dir sq i || INode.is_file sq i then some (INode.header sq i).file_size
  else if INode.is_symlink sq i then some (INode.header sq i).symlink_size
  else none

/-- `self.root` as built at the end of `SquashFS.__init__` (line 57):
`self.inode(root_inode >> 16, root_inode & 0xFFFF, name="/")` — every
other constructor argument, including `parent`, is left at its `None`
default. -/
def SquashFS.root (sq : SquashFS) : INode :=
  .mk (sq.sb.root_inode >>> 16) (sq.sb.root_inode &&& 0xFFFF) (some [47]) none none none

/-- The superblock validation performed by `SquashFS.__init__`
(squashfs.py lines 25-34): `ValueError` (kind InvalidImage) when the
magic differs from `SQUASHFS_MAGIC`, `NotImplementedError` (kind
UnsupportedVersion) when `s_major != 4` — and nothing else: no field of
the superblock besides `s_magic` and `s_major` is validated before the
tables are loaded and the root inode is materialized. -/
def SquashFS.init_check (sb : SuperBlock) : Except FsError Unit :=
  if sb.s_magic ≠ SQUASHFS_MAGIC then .error .invalidImage
  else if sb.s_major ≠ 4 then .error .unsupportedVersion
  else .ok ()

/-- The inner `for _ in range(dir_header.count + 1)` of `INode.iterdir`
(squashfs.py lines 332-347): read `n` directory entries, each an 8-byte
`squashfs_dir_entry` (`offset : u16`, `inode_number : s16`, `type : u16`,
`size : u16`) followed by `size + 1` raw name bytes, and emit a child
inode `(dir_header.start_block, entry.offset)` with name, provisional
type, inode number `dir_header.inode_number + entry.inode_number`
(signed addition) and a parent back-link.  Returns the updated
`(start, offset, bytes_read, reads)` state and the children in order;
`reads` counts `_read_metadata` calls.  `mf` is the fuel handed to
`read_metadata`. -/
def readEntries (sq : SquashFS) (mf : Nat) (parent : INode)
    (hdrStartBlock : Nat) (hdrInum : Nat) :
    Nat → Nat → Nat → Nat → Nat → Nat × Nat × Nat × Nat × List INode
  | 0, start, offset, bytesRead, reads => (start, offset, bytesRead, reads, [])
  | n + 1, start, offset, bytesRead, reads =>
    let r1 := sq.read_metadata mf start offset 8
    let data1 := r1.2.2
    let entOffset := leU16At data1 0
    let entInum := toSigned16 (leU16At data1 2)
    let entType := leU16At data1 4
    let entSize := leU16At data1 6
    let r2 := sq.read_metadata mf r1.1 r1.2.1 (entSize + 1)
    let nameBytes := r2.2.2
    let child : INode :=
      .mk hdrStartBlock entOffset (some nameBytes) (some entType)
        (some ((hdrInum : Int) + entInum)) (some parent)
    let rest := readEntries sq mf parent hdrStartBlock hdrInum n r2.1 r2.2.1
      (bytesRead + data1.length + nameBytes.length) (reads + 2)
    (rest.1, rest.2.1, rest.2.2.1, rest.2.2.2.1, child :: rest.2.2.2.2)

/-- The outer `while bytes_read < self.size - 3` loop of `INode.iterdir`
(squashfs.py lines 326-347): read a 12-byte `squashfs_dir_header`
(`count : u32`, `start_block : u32`, `inode_number : u32`), then
`count + 1` entries, accumulating `bytes_read` by the length of each
returned byte string.  The comparison is against the Python value
`size - 3` (negative when `size < 3`, in which case the loop does not
run — `Nat` truncation agrees since `bytes_read ≥ 0`).  One fuel unit
per outer iteration; exhaustion yields `fuelExhausted`, an error the
source (which would keep looping) never reports. -/
def iterdirLoop (sq : SquashFS) (mf : Nat) (parent : INode) (fileSize : Nat) :
    Nat → Nat → Nat → Nat → Nat → Except FsError (List INode × Nat)
  | 0, _, _, _, _ => .error .fuelExhausted
  | fuel + 1, start, offset, bytesRead, reads =>
    if fileSize - 3 ≤ bytesRead then .ok ([], reads)
    else
      let r := sq.read_metadata mf start offset 12
      let data := r.2.2
      let count := leU32At data 0
      let hdrStartBlock := leU32At data 4
      let hdrInum := leU32At data 8
      let es := readEntries sq mf parent hdrStartBlock hdrInum (count + 1) r.1 r.2.1
        (bytesRead + data.length) (reads + 1)
      match iterdirLoop sq mf parent fileSize fuel es.1 es.2.1 es.2.2.1 es.2.2.2.1 with
      | .error e => .error e
      | .ok (rest, totalReads) => .ok (es.2.2.2.2 ++ rest, totalReads)

/-- `INode.iterdir` (squashfs.py lines 316-347): `NotADirectoryError`
unless the inode is a directory; an empty result without any metadata
read when `self.size == 3`; otherwise decode the entry stream starting
at `(directory_table_start + header.start_block, header.offset)`.
Returns the children in on-disk order together with the number of
`_read_metadata` calls performed. -/
def INode.iterdir (sq : SquashFS) (fuel : Nat) (i : INode) :
    Except FsError (List INode × Nat) :=
  if ¬ INode.is_dir sq i then .error .notADirectory
  else if INode.size sq i = some 3 then .ok ([], 0)
  else
    iterdirLoop sq fuel i (INode.header sq i).file_size fuel
      (sq.sb.directory_table_start + (INode.header sq i).start_block)
      (INode.header sq i).offset 0 0

/-- `INode.link` (squashfs.py lines 291-301): `NotASymlinkError` unless
the inode is a symlink, else the `symlink_size` bytes that follow the
header in the inode table (the surrogate-escape decode is
byte-preserving, so the target is returned as its bytes). -/
def INode.link (sq : SquashFS) (fuel : Nat) (i : INode) :
    Except FsError (List Nat) :=
  if ¬ INode.is_symlink sq i then .error .notASymlink
  else
    .ok (sq.read_metadata fuel (sq.sb.inode_table_start + i.block)
      (i.offset + sq.headerLenOf i.block i.offset)
      (INode.header sq i).symlink_size).2.2

/-- Python `path.split("/")` on a byte string (`/` = 47): always returns
at least one (possibly empty) segment; `"".split("/") == [""]` and
`"/".split("/") == ["", ""]`. -/
def pySplit : List Nat → List (List Nat)
  | [] => [[]]
  | c :: rest =>
    if c = 47 then [] :: pySplit rest
    else
      match pySplit rest with
      | [] => [[c]]
      | s :: ss => (c :: s) :: ss

/-- The argument of `SquashFS.get`: either a packed 64-bit inode address
(`isinstance(path, int)`) or a textual path (as bytes). -/
inductive PathArg where
  | addr (a : Nat)
  | path (p : List Nat)

/-- The state of the path-resolution recursion of `SquashFS.get`
(squashfs.py lines 71-100): `get` is the entry point, `parts` the
`for part in parts` loop, `follow` the `while node.is_symlink()` loop
(whose second conjunct `part_num < len(parts)` is always true inside the
loop body and is therefore not represented). -/
inductive ResolveCall where
  | get (p : PathArg) (node? : Option INode)
  | parts (parts : List (List Nat)) (node : INode)
  | follow (node : INode)

/-- `SquashFS.get` together with the loops it contains (squashfs.py
lines 71-100) and the `INode.link_inode` resolution it calls into
(lines 303-310), as one fuel-indexed recursion (each step consumes one
fuel unit; the source bounds neither the symlink chain nor the recursive
`get` of a link target).

* an integer argument returns `self.inode(path >> 16, path & 0xFFFF)`
  immediately — the starting node is ignored and every other `INode`
  field is left `None`;
* a textual path starts from `node or self.root` and walks the
  segments: empty and `.` segments are skipped, `..` moves to
  `node.parent or node`, and any other segment first rehydrates
  symlinks (`link_inode` resolves the target path from root when it
  starts with `/`, else from the symlink's parent) and then scans
  `node.iterdir()` for an exact name match, raising
  `FileNotFoundError` when no entry matches. -/
def resolveF (sq : SquashFS) : Nat → ResolveCall → Except FsError INode
  | 0, _ => .error .fuelExhausted
  | fuel + 1, c =>
    match c with
    | .get (.addr a) _ => .ok (.mk (a >>> 16) (a &&& 0xFFFF) none none none none)
    | .get (.path p) node? => resolveF sq fuel (.parts (pySplit p) (node?.getD sq.root))
    | .parts [] node => .ok node
    | .parts (part :: rest) node =>
      if part = [] then resolveF sq fuel (.parts rest node)
      else if part = [46] then resolveF sq fuel (.parts rest node)
      else if part = [46, 46] then
        resolveF sq fuel (.parts rest (node.parent.getD node))
      else
        match resolveF sq fuel (.follow node) with
        | .error e => .error e
        | .ok node' =>
          match INode.iterdir sq fuel node' with
          | .error e => .error e
          | .ok (entries, _) =>
            match entries.find? (fun e => decide (e.name = some part)) with
            | some child => resolveF sq fuel (.parts rest child)
            | none => .error .fileNotFound
    | .follow node =>
      if INode.is_symlink sq node then
        match INode.link sq fuel node with
        | .error e => .error e
        | .ok target =>
          let relnode : Option INode :=
            if target.head? = some 47 then none else node.parent
          match resolveF sq fuel (.get (.path target) relnode) with
          | .error e => .error e
          | .ok node' => resolveF sq fuel (.follow node')
      else .ok node

/-- `SquashFS.get` (squashfs.py lines 71-100). -/
def SquashFS.get (sq : SquashFS) (fuel : Nat) (p : PathArg)
    (node? : Option INode := none) : Except FsError INode :=
  resolveF sq fuel (.get p node?)

/-- The body `_lookup_inode` runs after its bounds check passes
(squashfs.py lines 171-173): split `(inode_number - 1) * 8` into a
bucket and an in-block offset, read the packed 64-bit address through
the metadata stream anchored at `self.lookup_table[block]`, and resolve
it with `self.get(...)`.  The bare list subscript raises `IndexError`
in Python when the bucket is beyond the loaded table; that distinct
failure is `tableIndex` here. -/
def SquashFS.lookup_resolve (sq : SquashFS) (fuel : Nat) (inode_number : Int) :
    Except FsError INode :=
  let idx := (inode_number - 1).toNat * 8
  let block := idx / SQUASHFS_METADATA_SIZE
  let offset := idx % SQUASHFS_METADATA_SIZE
  if block < sq.lookup_table.length then
    let data := (sq.read_metadata fuel (sq.lookup_table.getD block 0) offset 8).2.2
    sq.get fuel (.addr (leU64At data 0))
  else .error .tableIndex

/-- `SquashFS._lookup_inode` (squashfs.py lines 167-173): `IndexError`
(spec kind IndexOutOfRange) when `inode_number <= 0 or
inode_number > self.sb.inodes`, else resolve through the lookup table.
The argument is an `Int` because any Python integer can be passed. -/
def SquashFS.lookup_inode (sq : SquashFS) (fuel : Nat) (inode_number : Int) :
    Except FsError INode :=
  if inode_number ≤ 0 ∨ (sq.sb.inodes : Int) < inode_number then
    .error .indexOutOfRange
  else sq.lookup_resolve fuel inode_number

/-- Modelled from the spec: `c_squashfs.uint32[blocks](data)` — parse
`blocks` consecutive little-endian 32-bit words from `data` (the
`cstruct` array reader, absent from `src/`; a short buffer would raise
there, here missing bytes read as 0 — no claim exercises that). -/
def leU32list (data : List Nat) (blocks : Nat) : List Nat :=
  (List.range blocks).map fun i => leU32At data (4 * i)

/-- `INode.block_list` (squashfs.py lines 349-372): the run list of a
regular file.  Without a fragment (`fragment == SQUASHFS_INVALID_FRAG`)
there are `(file_size + block_size - 1) >> block_log` block entries and
no tail; with a fragment, `divmod(file_size, block_size)` gives the
block count and the tail byte count.  The 32-bit length values are read
from the inode table right after the header; each becomes a `(some v, 1)`
run, and a nonzero tail appends the `(none, frag_bytes)` fragment run. -/
def INode.block_list (sq : SquashFS) (fuel : Nat) (i : INode) :
    List (Option Nat × Nat) :=
  let hdr := INode.header sq i
  let bf :=
    if hdr.fragment = SQUASHFS_INVALID_FRAG then
      ((hdr.file_size + sq.sb.block_size - 1) >>> sq.sb.block_log, 0)
    else
      (hdr.file_size / sq.sb.block_size, hdr.file_size % sq.sb.block_size)
  let bl :=
    if bf.1 ≠ 0 then
      let data := (sq.read_metadata fuel (sq.sb.inode_table_start + i.block)
        (i.offset + sq.headerLenOf i.block i.offset) (bf.1 * 4)).2.2
      (leU32list data bf.1).map fun b => ((some b : Option Nat), 1)
    else []
  bl ++ (if bf.2 ≠ 0 then [((none : Option Nat), bf.2)] else [])

/-- The state a `FileStream` captures at construction (squashfs.py
lines 381-388): the reader, the run list, the stream size
(`inode.size`), the block size, and the inode's `start_block`,
`fragment` and `fragment_offset` header fields.  `fuel` is the fuel
used for the fragment-table metadata walks the stream may perform. -/
structure FileModel where
  sq : SquashFS
  fuel : Nat
  size : Nat
  blockSize : Nat
  runlist : List (Option Nat × Nat)
  startBlock : Nat
  fragment : Nat
  fragmentOffset : Nat

/-- `INode.open` (squashfs.py lines 374-378) plus `FileStream.__init__`:
`NotAFileError` unless the inode is a regular file, else the captured
stream state. -/
def FileStream.ofInode (sq : SquashFS) (fuel : Nat) (i : INode) :
    Except FsError FileModel :=
  if ¬ INode.is_file sq i then .error .notAFile
  else
    .ok
      { sq := sq
        fuel := fuel
        size := (INode.size sq i).getD 0
        blockSize := sq.sb.block_size
        runlist := INode.block_list sq fuel i
        startBlock := (INode.header sq i).start_block
        fragment := (INode.header sq i).fragment
        fragmentOffset := (INode.header sq i).offset }

/-- The `_runlist_offsets` attribute maintained by the external
`dissect.util.stream.RunlistStream` base class (the `runlist` property
setter): the cumulative run counts, recorded *before* adding each run's
count and skipped while the running total is still zero, so that
`bisect_right(_runlist_offsets, block)` yields the index of the run
containing block number `block`. -/
def runlistOffsets (runs : List (Option Nat × Nat)) : List Nat :=
  go 0 runs
where
  /-- Accumulator recursion for `runlistOffsets`. -/
  go (offset : Nat) : List (Option Nat × Nat) → List Nat
    | [] => []
    | (_, count) :: rest =>
      if offset = 0 then go (offset + count) rest
      else offset :: go (offset + count) rest

/-- `bisect.bisect_right` on a sorted list: the number of elements `≤ x`
(the key here may be a Python int, hence `Int`). -/
def bisect_right (l : List Nat) (x : Int) : Nat :=
  l.countP fun o => decide (((o : Nat) : Int) ≤ x)

/-- Python `data[:n]` for an arbitrary (possibly negative) int `n`. -/
def pyPrefix (l : List Nat) (n : Int) : List Nat :=
  if 0 ≤ n then l.take n.toNat
  else l.take (l.length - min l.length (-n).toNat)

/-- `FileStream._read` of a data run: `self.fs._read_block(start, v)`
(data-block mode of `read_block`). -/
def FileModel.readBlock (fm : FileModel) (start v : Nat) : Nat × List Nat :=
  fm.sq.read_block start (some v)

/-- `FileStream._read` of the fragment run:
`self.fs._read_fragment(self.fragment, self.fragment_offset, count)`. -/
def FileModel.readFrag (fm : FileModel) (count : Nat) : List Nat :=
  fm.sq.read_fragment fm.fuel fm.fragment fm.fragmentOffset count

/-- The `while length > 0` loop of `FileStream._read` (squashfs.py
lines 403-437).  State: current run index, Python ints `offset` and
`length`, the `start_block` disk cursor, and the accumulated output.

* runs exhausted (`run_idx >= runlist_len`): stop;
* a `(none, count)` run is the fragment: append the whole
  `_read_fragment(fragment, fragment_offset, count)` result and advance
  `offset`/`length` by `count` — without advancing `run_idx` (faithful
  to the source; a zero `count`, on which the Python loop would spin
  forever, stops the model instead — `block_list` never produces one);
* a `(some v, 1)` run: `run_pos = offset - run_idx * block_size`,
  stop if `run_remaining = block_size - run_pos` is negative,
  `read_count = min(size - offset, min(run_remaining, length))`;
  `v = 0` emits `read_count` zero bytes without I/O, otherwise
  `read_block(start_block, v)` supplies the payload whose first
  `read_count` bytes are emitted and the returned next offset becomes
  the new cursor. -/
def FileModel.readLoop (fm : FileModel) (runIdx : Nat) (offset length : Int)
    (startBlock : Nat) (acc : List Nat) : List Nat :=
  if _h0 : length ≤ 0 then acc
  else if _h1 : fm.runlist.length ≤ runIdx then acc
  else
    match fm.runlist.getD runIdx (some 0, 1) with
    | (none, count) =>
      if _hc : count = 0 then acc
      else
        fm.readLoop runIdx (offset + count) (length - count) startBlock
          (acc ++ fm.readFrag count)
    | (some v, _) =>
      let run_pos : Int := offset - (runIdx : Int) * (fm.blockSize : Int)
      let run_remaining : Int := (fm.blockSize : Int) - run_pos
      if run_remaining < 0 then acc
      else
        let read_count := min ((fm.size : Int) - offset) (min run_remaining length)
        if v = 0 then
          fm.readLoop (runIdx + 1) (offset + read_count) (length - read_count)
            startBlock (acc ++ List.replicate read_count.toNat 0)
        else
          let r := fm.readBlock startBlock v
          fm.readLoop (runIdx + 1) (offset + read_count) (length - read_count)
            r.1 (acc ++ pyPrefix r.2 read_count)
termination_by (fm.runlist.length - runIdx, length.toNat)
decreasing_by
  · apply Prod.Lex.right
    omega
  · apply Prod.Lex.left
    omega
  · apply Prod.Lex.left
    omega

/-- `FileStream._read(offset, length)` (squashfs.py lines 390-437):
locate the starting run with
`bisect_right(self._runlist_offsets, offset // block_size)`, rebuild the
disk cursor as `self.start_block` plus the masked sizes
(`v & ~SQUASHFS_COMPRESSED_BIT_BLOCK`) of the preceding runs — the
fragment run can never precede the start index, so its `None` entry
(which would raise in Python) is read as 0 — and run the loop. -/
def FileModel.fsRead (fm : FileModel) (offset length : Int) : List Nat :=
  let block_offset := offset.fdiv (fm.blockSize : Int)
  let run_idx := bisect_right (runlistOffsets fm.runlist) block_offset
  let start_block := fm.startBlock +
    ((fm.runlist.take run_idx).map fun r => clearBit 24 (r.1.getD 0)).sum
  fm.readLoop run_idx offset length start_block []

/-- Modelled from the spec: the seekable stream layer `FileStream`
inherits (`RunlistStream`/`AlignedStream` from the external
`dissect.util` dependency, which `FileStream` configures with
`align = block_size`).  A `read` at position `p` for `n` bytes clamps
`n` to `size - p`, serves a misaligned head from a one-block buffer
fill `_read(align_down(p), block_size)`, reads the aligned middle with
a single `_read(p', count * block_size)`, and serves a trailing
remainder from a buffer fill at the final aligned position; buffered
data always equals a fresh `_read` of its block because `_read` is
pure.  `streamTail` is the aligned middle-plus-remainder part. -/
def FileModel.streamTail (fm : FileModel) (p n : Nat) : List Nat :=
  let align := fm.blockSize
  let cnt := n / align
  let rem := n % align
  (if cnt ≠ 0 then fm.fsRead (p : Int) ((cnt * align : Nat) : Int) else []) ++
  (if rem ≠ 0 then (fm.fsRead ((p + cnt * align : Nat) : Int) (align : Int)).take rem
   else [])

/-- Modelled from the spec: `FileStream.read` at stream position `p`
for `n` bytes (see `FileModel.streamTail` for the layering). -/
def FileModel.streamRead (fm : FileModel) (p n : Nat) : List Nat :=
  if fm.size ≤ p then []
  else
    let n := min n (fm.size - p)
    let pa := fm.blockSize * (p / fm.blockSize)
    if p ≠ pa then
      let buf := fm.fsRead (pa : Int) (fm.blockSize : Int)
      let bufPos := p - pa
      let bufLen := min n (fm.blockSize - bufPos)
      (buf.take (bufPos + bufLen)).drop bufPos ++ fm.streamTail (p + bufLen) (n - bufLen)
    else fm.streamTail p n

/-- Replay a chunk decomposition: successive `read` calls of the given
lengths starting at position `p` (each preceded by a `seek` to the
running position), concatenated. -/
def FileModel.chunkReads (fm : FileModel) (p : Nat) : List Nat → List Nat
  | [] => []
  | n :: ns => fm.streamRead p n ++ fm.chunkReads (p + n) ns

/-- One aligned block's worth of `_read` output: the buffer the stream
layer holds for block `k`. -/
def FileModel.blockBuf (fm : FileModel) (k : Nat) : List Nat :=
  fm.fsRead ((k * fm.blockSize : Nat) : Int) ((fm.blockSize : Nat) : Int)

/-- The slice of block `k`'s buffer that the byte range `[p, q)` of the
stream covers (in-block coordinates, truncated at the block bounds). -/
def FileModel.piece (fm : FileModel) (k p q : Nat) : List Nat :=
  let lo := max p (k * fm.blockSize) - k * fm.blockSize
  let hi := min q ((k + 1) * fm.blockSize) - k * fm.blockSize
  ((fm.blockBuf k).take hi).drop lo

/-- The number of aligned blocks covering `[0, size)`. -/
def FileModel.blockCount (fm : FileModel) : Nat :=
  (fm.size + fm.blockSize - 1) / fm.blockSize

/-- The canonical per-block decomposition of the byte range `[p, q)`:
each covering block contributes its covered slice. -/
def FileModel.segRead (fm : FileModel) (p q : Nat) : List Nat :=
  ((List.range fm.blockCount).map fun k => fm.piece k p q).flatten

/-- The shape `INode.block_list` gives a run list, together with the
size relation `FileStream` relies on: all data runs count 1 and come
first; an optional trailing fragment run carries the (nonzero, sub-block)
tail byte count; without a fragment run the block count is
`ceil(size / block_size)`. -/
def FileModel.Invariant (fm : FileModel) : Prop :=
  0 < fm.blockSize ∧
  ∃ (vals : List Nat) (fragN : Nat),
    fm.runlist = (vals.map fun v => ((some v : Option Nat), 1)) ++
      (if fragN = 0 then [] else [((none : Option Nat), fragN)]) ∧
    (if fragN = 0 then
      fm.size ≤ vals.length * fm.blockSize ∧
        vals.length * fm.blockSize < fm.size + fm.blockSize
     else fragN < fm.blockSize ∧ fm.size = vals.length * fm.blockSize + fragN)

/-- A trivial concrete reader (all-zero byte source, empty decompressor
output, all-default superblock and header oracles) used to instantiate
universally quantified theorems. -/
def sqZero : SquashFS :=
  { disk := fun _ => 0
    decomp := fun _ _ => []
    sb := {}
    headerOf := fun _ _ => {}
    headerLenOf := fun _ _ => 0 }

/-- A bare inode handle at address `(0, 0)`. -/
def nodeZero : INode := .mk 0 0 none none none none

/-- A concrete reader whose decompressor returns its output-bound
argument as a one-byte result, making the bound passed by `read_block`
observable, with `block_size = 4096 ≠ 8192`; byte 0 and 1 are zero, so
the metadata block at offset 0 is framed as compressed with length 0. -/
def sqC2 : SquashFS :=
  { disk := fun _ => 0
    decomp := fun _ bound => [bound]
    sb := { block_size := 4096 }
    headerOf := fun _ _ => {}
    headerLenOf := fun _ _ => 0 }

/-- A concrete reader whose byte source is constant `0x80`: the
metadata framing at offset 0 reads the length word `0x8080`
(uncompressed, length 128, next offset 130), while a data-mode read at
the same offset with length value `0x1000001` (uncompressed, length 1)
returns next offset 1. -/
def sqC3 : SquashFS :=
  { disk := fun _ => 128
    decomp := fun _ _ => []
    sb := {}
    headerOf := fun _ _ => {}
    headerLenOf := fun _ _ => 0 }

/-- A superblock with valid magic and major version but `block_log = 5`
(outside `[12, 20]`) and `block_size = 77 ≠ 1 <<< 5`. -/
def sbC4 : SuperBlock :=
  { s_magic := SQUASHFS_MAGIC
    s_major := 4
    block_log := 5
    block_size := 77 }

/-- A concrete reader on which every inode decodes as a directory with
`file_size = 3` (an empty directory). -/
def sqC7 : SquashFS :=
  { disk := fun _ => 0
    decomp := fun _ _ => []
    sb := {}
    headerOf := fun _ _ => { inode_type := 1, file_size := 3 }
    headerLenOf := fun _ _ => 0 }

/-- A concrete reader with `sb.inodes = 1`, so inode number 1 is in
range for `lookup_inode`. -/
def sqC6 : SquashFS :=
  { disk := fun _ => 0
    decomp := fun _ _ => []
    sb := { inodes := 1 }
    headerOf := fun _ _ => {}
    headerLenOf := fun _ _ => 0 }

/-- The byte source of `sqC8`: one uncompressed metadata block at
offset 0 (length word `0x8015` = uncompressed, 21 payload bytes)
holding a directory header (`count = 0`, `start_block = 7`,
`inode_number = 5`) followed by one directory entry
(`offset = 9`, `inode_number = +1`, `type = 2`, `size = 0`) and the
one-byte name `"a"` (byte 97). -/
def bytesC8 : List Nat :=
  [21, 128, 0, 0, 0, 0, 7, 0, 0, 0, 5, 0, 0, 0, 9, 0, 1, 0, 2, 0, 0, 0, 97]

/-- A concrete reader whose root (address `(0, 0)`) is a directory of
`file_size = 24` with exactly one child `"a"` at address `(7, 9)`. -/
def sqC8 : SquashFS :=
  { disk := fun n => bytesC8.getD n 0
    decomp := fun _ _ => []
    sb := { s_magic := SQUASHFS_MAGIC, s_major := 4, inodes := 9 }
    headerOf := fun b o =>
      if b = 0 ∧ o = 0 then { inode_type := 1, file_size := 24 }
      else { inode_type := 2 }
    headerLenOf := fun _ _ => 0 }

/-- The child inode `"a"` that `sqC8.get` resolves for the path `"a"`:
address `(7, 9)`, provisional type 2, inode number `5 + 1`, parent the
root. -/
def childC8 : INode :=
  .mk 7 9 (some [97]) (some 2) (some 6) (some (SquashFS.root sqC8))

/-- A concrete reader for a regular file of 5 bytes with
`block_size = 4` (`block_log = 2`): one (sparse) block run and a
one-byte fragment tail. -/
def sqC1 : SquashFS :=
  { disk := fun _ => 0
    decomp := fun _ _ => []
    sb := { block_size := 4, block_log := 2 }
    headerOf := fun _ _ => { inode_type := 2, file_size := 5 }
    headerLenOf := fun _ _ => 0 }

/-- The `FileModel` that `FileStream.ofInode sqC1 3 nodeZero` builds. -/
def fmC1 : FileModel :=
  { sq := sqC1
    fuel := 3
    size := 5
    blockSize := 4
    runlist := [((some 0 : Option Nat), 1), ((none : Option Nat), 1)]
    startBlock := 0
    fragment := 0
    fragmentOffset := 0 }

/-- Modelled from the spec: the packed 64-bit inode address
`(block << 16) | offset` (spec §3 "Inode identity"; the source exposes
no such attribute, the spec's `packed_address` names this packing). -/
def INode.packed_address (i : INode) : Nat := (i.block <<< 16) ||| i.offset

/-- The disk cursor of `FileStream._read` when positioned at run `j`:
`start_block` plus the masked sizes of the preceding block runs. -/
def FileModel.cursor (fm : FileModel) (vals : List Nat) (j : Nat) : Nat :=
  fm.startBlock + ((vals.take j).map (clearBit 24)).sum

/-- What one full-block iteration of the `_read` loop appends for block
run `k`: `block_size` zero bytes for a sparse run, else the first
`block_size` bytes of the `read_block` payload at the cursor. -/
def FileModel.payloadTake (fm : FileModel) (vals : List Nat) (k : Nat) : List Nat :=
  if vals.getD k 0 = 0 then List.replicate fm.blockSize 0
  else ((fm.readBlock (fm.cursor vals k) (vals.getD k 0)).2).take fm.blockSize

/-- Unpacking inverts packing on the `(block, offset)` pair whenever the
offset fits in 16 bits (metadata offsets are below 8192, directory-entry
offsets are 16-bit fields). -/
theorem packed_address_roundtrip (b off : Nat) (h : off < 65536) :
    ((b <<< 16) ||| off) >>> 16 = b ∧ ((b <<< 16) ||| off) &&& 0xFFFF = off := by
  have h16 : (65536 : Nat) = 2 ^ 16 := by norm_num
  constructor
  · apply Nat.eq_of_testBit_eq
    intro i
    rw [Nat.testBit_shiftRight, Nat.testBit_lor, Nat.testBit_shiftLeft]
    have hoff : off.testBit (16 + i) = false :=
      Nat.testBit_lt_two_pow (lt_of_lt_of_le (h16 ▸ h) (Nat.pow_le_pow_right (by norm_num) (by omega)))
    simp [hoff, Nat.add_sub_cancel_left, Nat.le_add_right]
  · apply Nat.eq_of_testBit_eq
    intro i
    have hmask : (0xFFFF : Nat) = 2 ^ 16 - 1 := by norm_num
    rw [Nat.testBit_and, hmask, Nat.testBit_two_pow_sub_one, Nat.testBit_lor,
      Nat.testBit_shiftLeft]
    by_cases hi : i < 16
    · have : ¬ (16 ≤ i) := by omega
      simp [hi, this]
    · have hoff : off.testBit i = false :=
        Nat.testBit_lt_two_pow (lt_of_lt_of_le (h16 ▸ h) (Nat.pow_le_pow_right (by norm_num) (by omega)))
      simp [hi, hoff]

/-- `lookup_resolve` never reports the explicit bounds-check error: its
failure modes are the table subscript (`tableIndex`) and fuel. -/
theorem lookup_resolve_ne_indexOutOfRange (sq : SquashFS) (fuel : Nat) (n : Int) :
    sq.lookup_resolve fuel n ≠ .error .indexOutOfRange := by
  unfold SquashFS.lookup_resolve
  dsimp only
  split
  · unfold SquashFS.get
    cases fuel with
    | zero => simp [resolveF]
    | succ m => simp [resolveF]
  · simp

/-- The directory-entry loop never reports `notADirectory`: that error
is raised only by the type check before the loop starts. -/
theorem iterdirLoop_ne_notADirectory (sq : SquashFS) (mf : Nat) (parent : INode)
    (fileSize : Nat) :
    ∀ fuel start offset bytesRead reads,
      iterdirLoop sq mf parent fileSize fuel start offset bytesRead reads ≠
        .error .notADirectory := by
  intro fuel
  induction fuel with
  | zero => intro start offset bytesRead reads; simp [iterdirLoop]
  | succ m ih =>
    intro start offset bytesRead reads
    unfold iterdirLoop
    dsimp only
    split
    · simp
    · split
      · next heq =>
        intro hcontra
        rw [Except.error.injEq] at hcontra
        subst hcontra
        exact ih _ _ _ _ heq
      · simp

/-- Skipping-only segments: a `parts` walk over segments that are all
empty or `"."` leaves the node unchanged (each skipped segment consumes
one fuel unit, the final empty list one more). -/
theorem resolveF_parts_trivial (sq : SquashFS) :
    ∀ (parts : List (List Nat)) (fuel : Nat) (node : INode),
      (∀ s ∈ parts, s = [] ∨ s = [46]) → parts.length < fuel →
      resolveF sq fuel (.parts parts node) = .ok node := by
  intro parts
  induction parts with
  | nil =>
    intro fuel node _ hfuel
    match fuel, hfuel with
    | f + 1, _ => simp [resolveF]
  | cons p rest ih =>
    intro fuel node hmem hfuel
    match fuel, hfuel with
    | f + 1, hfuel =>
      rcases hmem p (by simp) with hp | hp
      · subst hp
        simp only [resolveF, if_pos rfl]
        exact ih f node (fun s hs => hmem s (by simp [hs])) (by simpa using hfuel)
      · subst hp
        have h1 : ([46] : List Nat) ≠ [] := by simp
        simp only [resolveF, if_neg h1, if_pos rfl]
        exact ih f node (fun s hs => hmem s (by simp [hs])) (by simpa using hfuel)

/-- C2, counterexample: on `sqC2` (`block_size = 4096`, decompressor
returning its bound argument) the compressed metadata block at offset 0
decompresses with bound 4096, not `SQUASHFS_METADATA_SIZE = 8192` as the
claim states: the payload is `[4096]`, not the `[8192]` an 8192-bound
invocation would produce. -/
theorem c2_counterexample :
    (sqC2.read_block 0 none).2 ≠
      sqC2.decomp
        (sqC2.diskBytes 2 (clearBit 15 (sqC2.byteAt 0 + 256 * sqC2.byteAt 1)))
        SQUASHFS_METADATA_SIZE := by
  decide

/-- C2, amended: whenever `read_block` decompresses — in metadata mode
(no length hint) *and* in data mode alike — the decompressor is invoked
with output bound `self.block_size`; `SQUASHFS_METADATA_SIZE` is never
used as the bound. -/
theorem c2_decompress_bound_is_block_size (sq : SquashFS) (block l : Nat) :
    ((sq.byteAt block + 256 * sq.byteAt (block + 1)) &&& SQUASHFS_COMPRESSED_BIT = 0 →
      (sq.read_block block none).2 =
        sq.decomp
          (sq.diskBytes (block + 2)
            (clearBit 15 (sq.byteAt block + 256 * sq.byteAt (block + 1))))
          sq.sb.block_size) ∧
    (l &&& SQUASHFS_COMPRESSED_BIT_BLOCK = 0 →
      (sq.read_block block (some l)).2 =
        sq.decomp (sq.diskBytes block (clearBit 24 l)) sq.sb.block_size) := by
  constructor
  · intro h
    simp [SquashFS.read_block, h]
  · intro h
    simp [SquashFS.read_block, h]

/-- Witness for `c2_decompress_bound_is_block_size` at `sqC2`, block 0,
data length value 0 (both hypotheses hold there). -/
theorem c2_witness :
    ((sqC2.byteAt 0 + 256 * sqC2.byteAt 1) &&& SQUASHFS_COMPRESSED_BIT = 0) ∧
    (sqC2.read_block 0 none).2 =
      sqC2.decomp
        (sqC2.diskBytes 2 (clearBit 15 (sqC2.byteAt 0 + 256 * sqC2.byteAt 1)))
        sqC2.sb.block_size ∧
    ((0 : Nat) &&& SQUASHFS_COMPRESSED_BIT_BLOCK = 0) ∧
    (sqC2.read_block 0 (some 0)).2 =
      sqC2.decomp (sqC2.diskBytes 0 (clearBit 24 0)) sqC2.sb.block_size :=
  ⟨by decide, (c2_decompress_bound_is_block_size sqC2 0 0).1 (by decide), by decide,
    (c2_decompress_bound_is_block_size sqC2 0 0).2 (by decide)⟩

/-- C3, counterexample: on `sqC3`, after a data-mode read at offset 0
(length value `0x1000001`: uncompressed, 1 byte, next offset 1) is
cached, a metadata-mode read at the same offset 0 does *not* return the
cached result — it performs a fresh metadata-framed read (next offset
130), because the `lru_cache` key includes the length argument. -/
theorem c3_counterexample :
    (sqC3.read_block_cached (sqC3.read_block_cached [] 0 (some 16777217)).2 0 none).1 ≠
      (sqC3.read_block_cached [] 0 (some 16777217)).1 := by
  decide

/-- C3, amended: the `lru_cache` memoization key is the full
`(block_offset, length_hint)` argument tuple.  A later call at the same
`block_offset` with a *different* (or absent) `length_hint` misses the
cache and computes its own mode's result; only a call with the *same*
`length_hint` returns the cached entry. -/
theorem c3_cache_keyed_by_offset_and_hint (sq : SquashFS) (b L : Nat) :
    (sq.read_block_cached (sq.read_block_cached [] b (some L)).2 b none).1 =
      sq.read_block b none ∧
    (sq.read_block_cached (sq.read_block_cached [] b none).2 b (some L)).1 =
      sq.read_block b (some L) ∧
    (sq.read_block_cached (sq.read_block_cached [] b (some L)).2 b (some L)).1 =
      sq.read_block b (some L) := by
  refine ⟨?_, ?_, ?_⟩ <;> simp [SquashFS.read_block_cached, cacheLookup]

/-- C4, counterexample: a superblock with valid magic and `s_major = 4`
but `block_log = 5` (outside `[12, 20]`) and
`block_size = 77 ≠ 1 <<< block_log` is accepted: reader construction
performs no validation of `block_log` or `block_size`. -/
theorem c4_counterexample :
    SquashFS.init_check sbC4 = .ok () ∧ sbC4.block_log < 12 ∧
      (1 <<< sbC4.block_log) ≠ sbC4.block_size :=
  ⟨rfl, by decide, by decide⟩

/-- C4, amended: reader construction fails on exactly two conditions —
magic mismatch (kind InvalidImage) and `s_major ≠ 4` (kind
UnsupportedVersion); it succeeds whenever both hold, with `block_log`
and `block_size` left unvalidated. -/
theorem c4_init_check_magic_major_only (sb : SuperBlock) :
    (SquashFS.init_check sb = .ok () ↔
      (sb.s_magic = SQUASHFS_MAGIC ∧ sb.s_major = 4)) ∧
    (sb.s_magic ≠ SQUASHFS_MAGIC →
      SquashFS.init_check sb = .error .invalidImage) ∧
    (sb.s_magic = SQUASHFS_MAGIC → sb.s_major ≠ 4 →
      SquashFS.init_check sb = .error .unsupportedVersion) := by
  unfold SquashFS.init_check
  refine ⟨?_, ?_, ?_⟩
  · constructor
    · intro hok
      split_ifs at hok with h1 h2
      exact ⟨by simpa using h1, by simpa using h2⟩
    · rintro ⟨h1, h2⟩
      rw [if_neg (by simp [h1]), if_neg (by simp [h2])]
  · intro h
    rw [if_pos h]
  · intro h1 h2
    rw [if_neg (by simp [h1]), if_pos h2]

/-- Witness for `c4_init_check_magic_major_only` at the all-default
superblock (magic 0), discharging the first implication's hypothesis. -/
theorem c4_witness :
    ({} : SuperBlock).s_magic ≠ SQUASHFS_MAGIC ∧
      SquashFS.init_check {} = .error .invalidImage :=
  ⟨by decide, (c4_init_check_magic_major_only {}).2.1 (by decide)⟩

/-- C5, counterexample: the root inode is built with its `parent`
argument left at the default `None` — the root's parent is `None`, not
the root itself. -/
theorem c5_counterexample :
    (SquashFS.root sqZero).parent = none ∧
      (SquashFS.root sqZero).parent ≠ some (SquashFS.root sqZero) := by
  refine ⟨rfl, ?_⟩
  simp [SquashFS.root, INode.parent]

/-- C5, amended: the root's `parent` field is `None`; resolving a `..`
segment at the root is nevertheless a no-op because the resolver falls
back to the current node (`node = node.parent or node`) when the parent
is absent, so `get("..")` returns the root. -/
theorem c5_root_parent_none_dotdot_noop (sq : SquashFS) (fuel : Nat) :
    sq.root.parent = none ∧
      sq.get (fuel + 3) (.path [46, 46]) = .ok sq.root := by
  refine ⟨rfl, ?_⟩
  show resolveF sq (fuel + 3) (.get (.path [46, 46]) none) = .ok sq.root
  have hsplit : pySplit [46, 46] = [[46, 46]] := by decide
  simp [resolveF, hsplit, SquashFS.root, INode.parent]

/-- C6: `lookup_inode` reports the IndexOutOfRange kind exactly for
inode numbers outside `[1, sb.inodes]`; for an in-range number the
bounds check passes and the lookup proceeds to the table resolution
(`lookup_resolve`), whose own failure modes are distinct kinds. -/
theorem c6_lookup_inode_bounds (sq : SquashFS) (fuel : Nat) (n : Int) :
    (sq.lookup_inode fuel n = .error .indexOutOfRange ↔
      (n < 1 ∨ (sq.sb.inodes : Int) < n)) ∧
    (1 ≤ n → n ≤ (sq.sb.inodes : Int) →
      sq.lookup_inode fuel n = sq.lookup_resolve fuel n) := by
  unfold SquashFS.lookup_inode
  split
  · next h =>
    refine ⟨?_, ?_⟩
    · simp only [true_iff]
      omega
    · intro h1 h2
      omega
  · next h =>
    refine ⟨?_, fun _ _ => rfl⟩
    constructor
    · intro he
      exact absurd he (lookup_resolve_ne_indexOutOfRange sq fuel n)
    · intro hr
      exact absurd hr (by omega)

/-- Witness for `c6_lookup_inode_bounds` at `sqC6` (`sb.inodes = 1`)
and inode number 1. -/
theorem c6_witness :
    (1 : Int) ≤ 1 ∧ (1 : Int) ≤ (sqC6.sb.inodes : Int) ∧
      sqC6.lookup_inode 3 1 = sqC6.lookup_resolve 3 1 :=
  ⟨by decide, by decide, (c6_lookup_inode_bounds sqC6 3 1).2 (by decide) (by decide)⟩

/-- C7: `iterdir` fails with the NotADirectory kind exactly on
non-directory inodes, and an empty directory (`file_size == 3`) yields
no entries with zero `_read_metadata` calls. -/
theorem c7_iterdir_guard_and_empty (sq : SquashFS) (fuel : Nat) (i : INode) :
    (INode.iterdir sq fuel i = .error .notADirectory ↔
      INode.is_dir sq i = false) ∧
    (INode.is_dir sq i = true → (INode.header sq i).file_size = 3 →
      INode.iterdir sq fuel i = .ok ([], 0)) := by
  unfold INode.iterdir
  by_cases hd : INode.is_dir sq i
  · rw [if_neg (by simp [hd])]
    refine ⟨?_, ?_⟩
    · simp only [hd]
      split
      · simp
      · simpa using iterdirLoop_ne_notADirectory sq fuel i
          (INode.header sq i).file_size fuel _ _ 0 0
    · intro _ hfs
      rw [if_pos]
      unfold INode.size
      simp [hd, hfs]
  · rw [if_pos (by simp [hd])]
    simp [hd]

/-- Witness for `c7_iterdir_guard_and_empty` at `sqC7` (every inode a
directory with `file_size = 3`). -/
theorem c7_witness :
    INode.is_dir sqC7 nodeZero = true ∧
      (INode.header sqC7 nodeZero).file_size = 3 ∧
      INode.iterdir sqC7 5 nodeZero = .ok ([], 0) :=
  ⟨by decide, by decide,
    (c7_iterdir_guard_and_empty sqC7 5 nodeZero).2 (by decide) (by decide)⟩

/-- C8, counterexample: on `sqC8`, resolving the path `"a"` yields the
child inode (with name, provisional type, inode number and parent
back-link), while feeding its packed address `(7 <<< 16) ||| 9` back to
`get` yields a bare inode with every optional field `None` — the two
results are not equal. -/
theorem c8_counterexample :
    sqC8.get 9 (.addr ((7 <<< 16) ||| 9)) ≠ sqC8.get 9 (.path [97]) := by
  have h1 : sqC8.get 9 (.path [97]) = .ok childC8 := rfl
  have h2 : sqC8.get 9 (.addr ((7 <<< 16) ||| 9)) =
      .ok (.mk 7 9 none none none none) := rfl
  rw [h1, h2]
  intro h
  simp [childC8] at h

/-- C8, amended: round-tripping a resolved inode through
`(block << 16) | offset` and `get` preserves the `(block, offset)`
address (the offset is a 16-bit quantity), but the returned inode
carries no name, no provisional type, no inode number and no parent —
it is not equal to the original resolved inode. -/
theorem c8_packed_roundtrip_block_offset (sq : SquashFS) (fuel fuel' : Nat)
    (p : List Nat) (node? : Option INode) (e : INode)
    (_hres : sq.get fuel (.path p) node? = .ok e) (hoff : e.offset < 65536)
    (hf : 0 < fuel') :
    sq.get fuel' (.addr e.packed_address) =
      .ok (.mk e.block e.offset none none none none) := by
  match fuel', hf with
  | f + 1, _ =>
    show resolveF sq (f + 1) _ = _
    have hrt := packed_address_roundtrip e.block e.offset hoff
    simp [resolveF, INode.packed_address, hrt.1, hrt.2]

/-- Witness for `c8_packed_roundtrip_block_offset` at `sqC8` and the
resolved child of path `"a"`. -/
theorem c8_witness :
    sqC8.get 9 (.path [97]) = .ok childC8 ∧ childC8.offset < 65536 ∧ 0 < 9 ∧
      sqC8.get 9 (.addr childC8.packed_address) =
        .ok (.mk childC8.block childC8.offset none none none none) :=
  ⟨rfl, by decide, by decide,
    c8_packed_roundtrip_block_offset sqC8 9 9 [97] none childC8 rfl (by decide)
      (by decide)⟩

/-- C9: a path whose segments are all empty or `"."` resolves to the
starting node unchanged (the default start being the root, so `get("")`
and `get("/")` return the root). -/
theorem c9_trivial_path_returns_start (sq : SquashFS) (fuel : Nat) (p : List Nat)
    (node? : Option INode)
    (hseg : ∀ s ∈ pySplit p, s = [] ∨ s = [46])
    (hfuel : (pySplit p).length + 1 < fuel) :
    sq.get fuel (.path p) node? = .ok (node?.getD sq.root) := by
  match fuel, hfuel with
  | f + 1, hfuel =>
    show resolveF sq (f + 1) _ = _
    rw [resolveF]
    exact resolveF_parts_trivial sq (pySplit p) f (node?.getD sq.root) hseg
      (by omega)

/-- Witness for `c9_trivial_path_returns_start` at the path `"./"`
(segments `["."], [""]`) with the default starting node. -/
theorem c9_witness :
    (∀ s ∈ pySplit [46, 47], s = [] ∨ s = [46]) ∧
      (pySplit [46, 47]).length + 1 < 4 ∧
      sqZero.get 4 (.path [46, 47]) = .ok sqZero.root :=
  ⟨by decide, by decide,
    c9_trivial_path_returns_start sqZero 4 [46, 47] none (by decide) (by decide)⟩

/-- C10: an integer (packed address) argument to `get` ignores the
supplied starting node entirely, and yields the bare inode
`(a >> 16, a & 0xFFFF)` with no name and no parent, identical to the
default-start call. -/
theorem c10_get_addr_ignores_start (sq : SquashFS) (fuel : Nat) (a : Nat)
    (node? : Option INode) :
    sq.get fuel (.addr a) node? = sq.get fuel (.addr a) ∧
    (0 < fuel →
      sq.get fuel (.addr a) node? =
        .ok (.mk (a >>> 16) (a &&& 0xFFFF) none none none none)) := by
  cases fuel with
  | zero => exact ⟨rfl, fun h => absurd h (by omega)⟩
  | succ m => exact ⟨rfl, fun _ => rfl⟩

/-- Witness for `c10_get_addr_ignores_start` at address 5 with an
explicit (ignored) starting node. -/
theorem c10_witness :
    0 < 1 ∧
      sqZero.get 1 (.addr 5) (some nodeZero) =
        .ok (.mk (5 >>> 16) (5 &&& 0xFFFF) none none none none) :=
  ⟨by decide, (c10_get_addr_ignores_start sqZero 1 5 (some nodeZero)).2 (by decide)⟩

/-- `pyPrefix` with a non-negative (natural) count is `List.take`. -/
theorem pyPrefix_coe (l : List Nat) (n : Nat) : pyPrefix l ((n : Nat) : Int) = l.take n := by
  simp [pyPrefix]

/-- Dropping through a shared boundary: for `a ≤ b`, the slice `[a, b)`
followed by the remainder from `b` is the remainder from `a`. -/
theorem take_drop_comp (a : Nat) : ∀ (m : List α) (b : Nat), a ≤ b →
    (m.take b).drop a ++ m.drop b = m.drop a := by
  induction a with
  | zero =>
    intro m b _
    simp [List.take_append_drop]
  | succ a ih =>
    intro m b hab
    match m, b with
    | [], b => simp
    | x :: xs, b + 1 =>
      simp only [List.take_succ_cons, List.drop_succ_cons]
      exact ih xs b (by omega)

/-- Composition of Python-style slices `l[a:b] ++ l[b:c] = l[a:c]` for
`a ≤ b ≤ c` (slices as `(take _).drop _`, robust to out-of-range
bounds). -/
theorem pySlice_comp (l : List α) (a b c : Nat) (hab : a ≤ b) (hbc : b ≤ c) :
    (l.take b).drop a ++ (l.take c).drop b = (l.take c).drop a := by
  have h1 : l.take b = (l.take c).take b := by
    rw [List.take_take, Nat.min_eq_left hbc]
  rw [h1]
  exact take_drop_comp a (l.take c) b hab

/-- A flatten of all-empty mapped segments is empty. -/
theorem flatten_map_nil {f : Nat → List α} {l : List Nat}
    (h : ∀ k ∈ l, f k = []) : (l.map f).flatten = [] := by
  induction l with
  | nil => rfl
  | cons x xs ih =>
    simp only [List.map_cons, List.flatten_cons, h x (by simp)]
    exact ih fun k hk => h k (by simp [hk])

/-- Restricting a flatten over `range K` to the window `[a, b)` outside
of which every segment is empty. -/
theorem flatten_range_window (f : Nat → List α) (K a b : Nat)
    (ha : ∀ k < a, f k = []) (hb : ∀ k, b ≤ k → f k = [])
    (hab : a ≤ b) (hbK : b ≤ K) :
    ((List.range K).map f).flatten = ((List.range' a (b - a)).map f).flatten := by
  have hsplit : List.range K =
      List.range' 0 a ++ List.range' a (b - a) ++ List.range' b (K - b) := by
    rw [List.range_eq_range']
    have h1 : List.range' 0 a ++ List.range' (0 + 1 * a) (b - a) =
        List.range' 0 ((b - a) + a) := List.range'_append 0 a (b - a) 1
    have h2 : List.range' 0 b ++ List.range' (0 + 1 * b) (K - b) =
        List.range' 0 ((K - b) + b) := List.range'_append 0 b (K - b) 1
    simp only [one_mul, zero_add] at h1 h2
    rw [show (b - a) + a = b by omega] at h1
    rw [show (K - b) + b = K by omega] at h2
    rw [← h2, ← h1]
  rw [hsplit]
  simp only [List.map_append, List.flatten_append]
  rw [flatten_map_nil (f := f) (l := List.range' 0 a)
      (fun k hk => ha k (by have := List.mem_range'_1.mp hk; omega)),
    flatten_map_nil (f := f) (l := List.range' b (K - b))
      (fun k hk => hb k (by have := List.mem_range'_1.mp hk; omega))]
  simp


theorem runlistOffsets_go_ones (tail : List (Option Nat × Nat)) :
    ∀ (vals : List Nat) (o : Nat), 0 < o →
      runlistOffsets.go o ((vals.map fun v => ((some v : Option Nat), 1)) ++ tail) =
        List.range' o vals.length ++ runlistOffsets.go (o + vals.length) tail := by
  intro vals
  induction vals with
  | nil => intro o _; simp
  | cons v rest ih =>
    intro o ho
    show runlistOffsets.go o ((some v, 1) :: ((rest.map fun v => ((some v : Option Nat), 1)) ++ tail)) = _
    rw [runlistOffsets.go, if_neg (by omega : ¬ o = 0)]
    rw [ih (o + 1) (by omega)]
    have h1 : List.range' o (rest.length + 1) = o :: List.range' (o + 1) rest.length := rfl
    simp only [List.length_cons, h1, List.cons_append]
    rw [show o + 1 + rest.length = o + (rest.length + 1) by omega]

theorem runlistOffsets_shaped (vals : List Nat) (fragN : Nat) :
    runlistOffsets ((vals.map fun v => ((some v : Option Nat), 1)) ++
        (if fragN = 0 then [] else [((none : Option Nat), fragN)])) =
      List.range' 1 (vals.length + (if fragN = 0 then 0 else 1) - 1) := by
  unfold runlistOffsets
  match vals with
  | [] =>
    by_cases hf : fragN = 0
    · simp [hf, runlistOffsets.go]
    · simp [hf, runlistOffsets.go]
  | v :: rest =>
    show runlistOffsets.go 0 ((some v, 1) :: ((rest.map fun v => ((some v : Option Nat), 1)) ++ _)) = _
    rw [runlistOffsets.go, if_pos rfl]
    rw [runlistOffsets_go_ones _ rest 1 (by omega)]
    by_cases hf : fragN = 0
    · simp [hf, runlistOffsets.go]
    · simp only [hf, if_false]
      have h1 : runlistOffsets.go (1 + rest.length) [((none : Option Nat), fragN)] =
          [1 + rest.length] := by
        rw [runlistOffsets.go, if_neg (by omega : ¬ 1 + rest.length = 0)]
        rfl
      rw [h1]
      have h2 : List.range' 1 rest.length ++ List.range' (1 + 1 * rest.length) 1 =
          List.range' 1 (1 + rest.length) := List.range'_append 1 rest.length 1 1
      simp only [one_mul] at h2
      have h3 : List.range' (1 + rest.length) 1 = [1 + rest.length] := by
        simp [List.range']
      rw [← h3, h2, List.length_cons]
      rw [show rest.length + 1 + 1 - 1 = 1 + rest.length by omega]

theorem bisect_right_range' (m j : Nat) :
    bisect_right (List.range' 1 m) ((j : Nat) : Int) = min m j := by
  unfold bisect_right
  induction m with
  | zero => simp
  | succ m ih =>
    have hsplit : List.range' 1 (m + 1) = List.range' 1 m ++ [1 + m] := by
      have h2 : List.range' 1 m ++ List.range' (1 + 1 * m) 1 =
          List.range' 1 (1 + m) := List.range'_append 1 m 1 1
      simp only [one_mul] at h2
      rw [show m + 1 = 1 + m by omega, ← h2]
      simp [List.range']
    rw [hsplit, List.countP_append, ih]
    by_cases hj : 1 + m ≤ j
    · have hc : ((1 + m : Nat) : Int) ≤ ((j : Nat) : Int) := by omega
      simp only [List.countP_cons, List.countP_nil, decide_eq_true_eq, zero_add]
      rw [if_pos hc]
      omega
    · have hc : ¬ ((1 + m : Nat) : Int) ≤ ((j : Nat) : Int) := by omega
      simp only [List.countP_cons, List.countP_nil, decide_eq_true_eq, zero_add]
      rw [if_neg hc]
      omega

theorem shaped_runlist_length (fm : FileModel) (vals : List Nat) (fragN : Nat)
    (hrun : fm.runlist = (vals.map fun v => ((some v : Option Nat), 1)) ++
      (if fragN = 0 then [] else [((none : Option Nat), fragN)])) :
    fm.runlist.length = vals.length + (if fragN = 0 then 0 else 1) := by
  rw [hrun]
  by_cases hf : fragN = 0 <;> simp [hf]

theorem shaped_getD_block (fm : FileModel) (vals : List Nat) (fragN : Nat)
    (hrun : fm.runlist = (vals.map fun v => ((some v : Option Nat), 1)) ++
      (if fragN = 0 then [] else [((none : Option Nat), fragN)]))
    (k : Nat) (hk : k < vals.length) :
    fm.runlist.getD k ((some 0 : Option Nat), 1) = (some (vals.getD k 0), 1) := by
  rw [hrun]
  rw [List.getD_eq_getElem?_getD, List.getD_eq_getElem?_getD]
  rw [List.getElem?_append_left (by simpa using hk)]
  rw [List.getElem?_map]
  rw [List.getElem?_eq_getElem hk]
  rfl

theorem shaped_take (fm : FileModel) (vals : List Nat) (fragN : Nat)
    (hrun : fm.runlist = (vals.map fun v => ((some v : Option Nat), 1)) ++
      (if fragN = 0 then [] else [((none : Option Nat), fragN)]))
    (j : Nat) (hj : j ≤ vals.length) :
    fm.runlist.take j = (vals.take j).map fun v => ((some v : Option Nat), 1) := by
  rw [hrun, List.take_append_of_le_length (by simpa using hj), List.map_take]

theorem cursor_take_eq (fm : FileModel) (vals : List Nat) (fragN : Nat)
    (hrun : fm.runlist = (vals.map fun v => ((some v : Option Nat), 1)) ++
      (if fragN = 0 then [] else [((none : Option Nat), fragN)]))
    (j : Nat) (hj : j ≤ vals.length) :
    fm.startBlock +
      ((fm.runlist.take j).map fun r => clearBit 24 (r.1.getD 0)).sum =
      fm.cursor vals j := by
  rw [shaped_take fm vals fragN hrun j hj, FileModel.cursor, List.map_map]
  rfl

theorem cursor_succ (fm : FileModel) (vals : List Nat) (j : Nat)
    (hj : j < vals.length) :
    fm.cursor vals (j + 1) = fm.cursor vals j + clearBit 24 (vals.getD j 0) := by
  unfold FileModel.cursor
  rw [List.take_succ, List.getElem?_eq_getElem hj, List.map_append, List.sum_append]
  simp [List.getD_eq_getElem?_getD, List.getElem?_eq_getElem hj]
  omega

theorem read_block_data_fst (sq : SquashFS) (s v : Nat) :
    (sq.read_block s (some v)).1 = s + clearBit 24 v := by
  unfold SquashFS.read_block
  dsimp only
  split <;> rfl

theorem readLoop_len_nonpos (fm : FileModel) (runIdx : Nat) (offset length : Int)
    (startBlock : Nat) (acc : List Nat) (h : length ≤ 0) :
    fm.readLoop runIdx offset length startBlock acc = acc := by
  rw [FileModel.readLoop, dif_pos h]

theorem fdiv_natCast (a b : Nat) :
    ((a : Nat) : Int).fdiv ((b : Nat) : Int) = ((a / b : Nat) : Int) := by
  rw [Int.fdiv_eq_tdiv (by positivity) (by positivity), Int.ofNat_tdiv]

theorem clearBit_zero (i : Nat) : clearBit i 0 = 0 := by
  simp [clearBit]

theorem fsRead_entry (fm : FileModel) (vals : List Nat) (fragN : Nat)
    (hbs : 0 < fm.blockSize)
    (hrun : fm.runlist = (vals.map fun v => ((some v : Option Nat), 1)) ++
      (if fragN = 0 then [] else [((none : Option Nat), fragN)]))
    (j : Nat) (hj : j < vals.length + (if fragN = 0 then 0 else 1)) (L : Int) :
    fm.fsRead (((j * fm.blockSize : Nat)) : Int) L =
      fm.readLoop j (((j * fm.blockSize : Nat)) : Int) L (fm.cursor vals j) [] := by
  unfold FileModel.fsRead
  dsimp only
  rw [fdiv_natCast, Nat.mul_div_cancel _ hbs]
  rw [hrun, runlistOffsets_shaped, bisect_right_range']
  have hidx : min (vals.length + (if fragN = 0 then 0 else 1) - 1) j = j := by
    omega
  rw [hidx, ← hrun]
  rw [cursor_take_eq fm vals fragN hrun j (by
    by_cases hf : fragN = 0 <;> simp [hf] at hj <;> omega)]

theorem readLoop_blocks (fm : FileModel) (vals : List Nat) (fragN : Nat)
    (hbs : 0 < fm.blockSize)
    (hrun : fm.runlist = (vals.map fun v => ((some v : Option Nat), 1)) ++
      (if fragN = 0 then [] else [((none : Option Nat), fragN)]))
    (hsz : if fragN = 0 then
        fm.size ≤ vals.length * fm.blockSize ∧
          vals.length * fm.blockSize < fm.size + fm.blockSize
      else fragN < fm.blockSize ∧ fm.size = vals.length * fm.blockSize + fragN) :
    ∀ (c j : Nat) (acc : List Nat), (j + c) * fm.blockSize ≤ fm.size →
      fm.readLoop j (((j * fm.blockSize : Nat)) : Int)
          (((c * fm.blockSize : Nat)) : Int) (fm.cursor vals j) acc =
        acc ++ ((List.range' j c).map fun k => fm.payloadTake vals k).flatten := by
  intro c
  induction c with
  | zero =>
    intro j acc _
    rw [readLoop_len_nonpos fm _ _ _ _ _ (by simp)]
    simp
  | succ c ih =>
    intro j acc hjc
    have hexp : (j + (c + 1)) * fm.blockSize =
        j * fm.blockSize + c * fm.blockSize + fm.blockSize := by ring
    rw [hexp] at hjc
    have hjB : j < vals.length := by
      by_cases hf : fragN = 0
      · rw [if_pos hf] at hsz
        have h1 : j * fm.blockSize + c * fm.blockSize + fm.blockSize ≤
            vals.length * fm.blockSize := le_trans hjc hsz.1
        have h2 : (j + c + 1) * fm.blockSize ≤ vals.length * fm.blockSize := by
          rw [show (j + c + 1) * fm.blockSize =
            j * fm.blockSize + c * fm.blockSize + fm.blockSize by ring]
          exact h1
        have := Nat.le_of_mul_le_mul_right h2 hbs
        omega
      · rw [if_neg hf] at hsz
        have h1 : (j + c + 1) * fm.blockSize < (vals.length + 1) * fm.blockSize := by
          rw [show (j + c + 1) * fm.blockSize =
            j * fm.blockSize + c * fm.blockSize + fm.blockSize by ring]
          calc j * fm.blockSize + c * fm.blockSize + fm.blockSize ≤ fm.size := hjc
            _ = vals.length * fm.blockSize + fragN := hsz.2
            _ < (vals.length + 1) * fm.blockSize := by
                rw [show (vals.length + 1) * fm.blockSize =
                  vals.length * fm.blockSize + fm.blockSize by ring]
                omega
        have := Nat.lt_of_mul_lt_mul_right h1
        omega
    have hlen : fm.runlist.length = vals.length + (if fragN = 0 then 0 else 1) :=
      shaped_runlist_length fm vals fragN hrun
    rw [FileModel.readLoop]
    rw [dif_neg (by
      have : (0 : Int) < ((c + 1) * fm.blockSize : Nat) := by
        have : 0 < (c + 1) * fm.blockSize := by positivity
        exact_mod_cast this
      omega)]
    rw [dif_neg (by omega : ¬ fm.runlist.length ≤ j)]
    rw [shaped_getD_block fm vals fragN hrun j hjB]
    dsimp only
    have hrpos : (((j * fm.blockSize : Nat)) : Int) -
        (j : Int) * (fm.blockSize : Int) = 0 := by push_cast; ring
    rw [hrpos, sub_zero]
    rw [if_neg (by omega : ¬ ((fm.blockSize : Nat) : Int) < 0)]
    have hrc : min (((fm.size : Nat) : Int) - ((j * fm.blockSize : Nat) : Int))
        (min ((fm.blockSize : Nat) : Int) (((c + 1) * fm.blockSize : Nat) : Int)) =
        ((fm.blockSize : Nat) : Int) := by
      have h1 : ((c + 1) * fm.blockSize : Nat) = c * fm.blockSize + fm.blockSize := by
        ring
      rw [h1]
      push_cast
      omega
    rw [hrc]
    have hoff : (((j * fm.blockSize : Nat)) : Int) + ((fm.blockSize : Nat) : Int) =
        (((j + 1) * fm.blockSize : Nat) : Int) := by push_cast; ring
    have hlen2 : (((c + 1) * fm.blockSize : Nat) : Int) - ((fm.blockSize : Nat) : Int) =
        ((c * fm.blockSize : Nat) : Int) := by push_cast; ring
    have hih : ((j + 1) + c) * fm.blockSize ≤ fm.size := by
      rw [show ((j + 1) + c) * fm.blockSize =
        j * fm.blockSize + c * fm.blockSize + fm.blockSize by ring]
      exact hjc
    have hrange : List.range' j (c + 1) = j :: List.range' (j + 1) c := rfl
    by_cases hv : vals.getD j 0 = 0
    · rw [if_pos hv]
      rw [hoff, hlen2]
      have hcur : fm.cursor vals j = fm.cursor vals (j + 1) := by
        rw [cursor_succ fm vals j hjB, hv, clearBit_zero, Nat.add_zero]
      rw [hcur]
      rw [ih (j + 1) (acc ++ List.replicate (((fm.blockSize : Nat) : Int)).toNat 0) hih]
      rw [hrange]
      simp only [List.map_cons, List.flatten_cons, FileModel.payloadTake, if_pos hv]
      rw [Int.toNat_natCast, List.append_assoc]
    · rw [if_neg hv]
      rw [hoff, hlen2]
      have hfst : (fm.readBlock (fm.cursor vals j) (vals.getD j 0)).1 =
          fm.cursor vals (j + 1) := by
        rw [FileModel.readBlock, read_block_data_fst, cursor_succ fm vals j hjB]
      rw [hfst]
      rw [ih (j + 1) _ hih]
      rw [hrange]
      simp only [List.map_cons, List.flatten_cons, FileModel.payloadTake, if_neg hv]
      rw [pyPrefix_coe, List.append_assoc]

theorem payloadTake_length_le (fm : FileModel) (vals : List Nat) (k : Nat) :
    (fm.payloadTake vals k).length ≤ fm.blockSize := by
  unfold FileModel.payloadTake
  split
  · simp
  · simp [List.length_take]

theorem lt_vals_of_succ_mul_le (fm : FileModel) (vals : List Nat) (fragN : Nat)
    (hbs : 0 < fm.blockSize)
    (hsz : if fragN = 0 then
        fm.size ≤ vals.length * fm.blockSize ∧
          vals.length * fm.blockSize < fm.size + fm.blockSize
      else fragN < fm.blockSize ∧ fm.size = vals.length * fm.blockSize + fragN)
    (k : Nat) (hk : (k + 1) * fm.blockSize ≤ fm.size) : k < vals.length := by
  by_cases hf : fragN = 0
  · rw [if_pos hf] at hsz
    have h2 : (k + 1) * fm.blockSize ≤ vals.length * fm.blockSize :=
      le_trans hk hsz.1
    have := Nat.le_of_mul_le_mul_right h2 hbs
    omega
  · rw [if_neg hf] at hsz
    have h1 : (k + 1) * fm.blockSize < (vals.length + 1) * fm.blockSize := by
      calc (k + 1) * fm.blockSize ≤ fm.size := hk
        _ = vals.length * fm.blockSize + fragN := hsz.2
        _ < (vals.length + 1) * fm.blockSize := by
            rw [show (vals.length + 1) * fm.blockSize =
              vals.length * fm.blockSize + fm.blockSize by ring]
            omega
    have := Nat.lt_of_mul_lt_mul_right h1
    omega

theorem blockBuf_eq_payloadTake (fm : FileModel) (vals : List Nat) (fragN : Nat)
    (hbs : 0 < fm.blockSize)
    (hrun : fm.runlist = (vals.map fun v => ((some v : Option Nat), 1)) ++
      (if fragN = 0 then [] else [((none : Option Nat), fragN)]))
    (hsz : if fragN = 0 then
        fm.size ≤ vals.length * fm.blockSize ∧
          vals.length * fm.blockSize < fm.size + fm.blockSize
      else fragN < fm.blockSize ∧ fm.size = vals.length * fm.blockSize + fragN)
    (k : Nat) (hk : (k + 1) * fm.blockSize ≤ fm.size) :
    fm.blockBuf k = fm.payloadTake vals k := by
  have hkB := lt_vals_of_succ_mul_le fm vals fragN hbs hsz k hk
  unfold FileModel.blockBuf
  rw [fsRead_entry fm vals fragN hbs hrun k (by by_cases hf : fragN = 0 <;> simp [hf] <;> omega) _]
  have h1 : ((fm.blockSize : Nat) : Int) = ((1 * fm.blockSize : Nat) : Int) := by
    push_cast; ring
  rw [h1]
  rw [readLoop_blocks fm vals fragN hbs hrun hsz 1 k [] (by
    rw [show (k + 1) * fm.blockSize = (k + 1) * fm.blockSize from rfl]; exact hk)]
  simp

theorem fsRead_aligned_multi (fm : FileModel) (vals : List Nat) (fragN : Nat)
    (hbs : 0 < fm.blockSize)
    (hrun : fm.runlist = (vals.map fun v => ((some v : Option Nat), 1)) ++
      (if fragN = 0 then [] else [((none : Option Nat), fragN)]))
    (hsz : if fragN = 0 then
        fm.size ≤ vals.length * fm.blockSize ∧
          vals.length * fm.blockSize < fm.size + fm.blockSize
      else fragN < fm.blockSize ∧ fm.size = vals.length * fm.blockSize + fragN)
    (j c : Nat) (hjc : (j + c) * fm.blockSize ≤ fm.size) :
    fm.fsRead (((j * fm.blockSize : Nat)) : Int) (((c * fm.blockSize : Nat)) : Int) =
      ((List.range' j c).map fun k => fm.blockBuf k).flatten := by
  cases c with
  | zero =>
    unfold FileModel.fsRead
    dsimp only
    rw [readLoop_len_nonpos fm _ _ _ _ _ (by simp)]
    simp
  | succ c =>
    have hjB : j < vals.length := by
      apply lt_vals_of_succ_mul_le fm vals fragN hbs hsz
      calc (j + 1) * fm.blockSize ≤ (j + (c + 1)) * fm.blockSize := by
            apply Nat.mul_le_mul_right
            omega
        _ ≤ fm.size := hjc
    rw [fsRead_entry fm vals fragN hbs hrun j
      (by by_cases hf : fragN = 0 <;> simp [hf] <;> omega) _]
    rw [readLoop_blocks fm vals fragN hbs hrun hsz (c + 1) j [] hjc]
    rw [List.nil_append]
    apply congrArg
    apply List.map_congr_left
    intro k hk
    have hkmem := List.mem_range'_1.mp hk
    exact (blockBuf_eq_payloadTake fm vals fragN hbs hrun hsz k (by
      calc (k + 1) * fm.blockSize ≤ (j + (c + 1)) * fm.blockSize := by
            apply Nat.mul_le_mul_right
            omega
        _ ≤ fm.size := hjc)).symm

theorem piece_nil (fm : FileModel) (k p q : Nat)
    (h : min q ((k + 1) * fm.blockSize) - k * fm.blockSize ≤
      max p (k * fm.blockSize) - k * fm.blockSize) :
    fm.piece k p q = [] := by
  unfold FileModel.piece
  apply List.drop_eq_nil_of_le
  calc ((fm.blockBuf k).take (min q ((k + 1) * fm.blockSize) - k * fm.blockSize)).length
      ≤ min q ((k + 1) * fm.blockSize) - k * fm.blockSize := by
        simp [List.length_take]
    _ ≤ _ := h

theorem piece_empty_low (fm : FileModel) (k p q : Nat)
    (h : (k + 1) * fm.blockSize ≤ p) : fm.piece k p q = [] := by
  apply piece_nil
  have hx : (k + 1) * fm.blockSize = k * fm.blockSize + fm.blockSize := by ring
  omega

theorem piece_empty_high (fm : FileModel) (k p q : Nat)
    (h : q ≤ k * fm.blockSize) : fm.piece k p q = [] := by
  apply piece_nil
  have hx : (k + 1) * fm.blockSize = k * fm.blockSize + fm.blockSize := by ring
  omega

theorem piece_congr_lo (fm : FileModel) (k p q x : Nat)
    (hpq : p ≤ q) (hq : q ≤ k * fm.blockSize) :
    fm.piece k p x = fm.piece k q x := by
  unfold FileModel.piece
  rw [show max p (k * fm.blockSize) = max q (k * fm.blockSize) by omega]

theorem piece_congr_hi (fm : FileModel) (k p q r : Nat)
    (hq : (k + 1) * fm.blockSize ≤ q) (hqr : q ≤ r) :
    fm.piece k p q = fm.piece k p r := by
  unfold FileModel.piece
  rw [show min q ((k + 1) * fm.blockSize) = min r ((k + 1) * fm.blockSize) by omega]

theorem piece_split (fm : FileModel) (k p q r : Nat) (hpq : p ≤ q) (hqr : q ≤ r) :
    fm.piece k p q ++ fm.piece k q r = fm.piece k p r := by
  have hx : (k + 1) * fm.blockSize = k * fm.blockSize + fm.blockSize := by ring
  by_cases h1 : q ≤ k * fm.blockSize
  · rw [piece_empty_high fm k p q h1, List.nil_append]
    exact (piece_congr_lo fm k p q r hpq h1).symm
  · by_cases h2 : (k + 1) * fm.blockSize ≤ q
    · rw [piece_empty_low fm k q r h2, List.append_nil]
      exact piece_congr_hi fm k p q r h2 hqr
    · unfold FileModel.piece
      rw [show min q ((k + 1) * fm.blockSize) - k * fm.blockSize =
        q - k * fm.blockSize by omega]
      rw [show max q (k * fm.blockSize) - k * fm.blockSize =
        q - k * fm.blockSize by omega]
      exact pySlice_comp (fm.blockBuf k) _ _ _ (by omega) (by omega)

theorem segRead_self (fm : FileModel) (p : Nat) : fm.segRead p p = [] := by
  unfold FileModel.segRead
  apply flatten_map_nil
  intro k _
  apply piece_nil
  have hx : (k + 1) * fm.blockSize = k * fm.blockSize + fm.blockSize := by ring
  omega

theorem seg_split_aux (fm : FileModel) (p q r : Nat) (hpq : p ≤ q) (hqr : q ≤ r) :
    ∀ K, ((List.range K).map fun k => fm.piece k p q).flatten ++
        ((List.range K).map fun k => fm.piece k q r).flatten =
      ((List.range K).map fun k => fm.piece k p r).flatten := by
  intro K
  induction K with
  | zero => simp
  | succ K ih =>
    rw [List.range_succ]
    simp only [List.map_append, List.flatten_append, List.map_cons, List.map_nil,
      List.flatten_cons, List.flatten_nil, List.append_nil]
    by_cases hq : q ≤ K * fm.blockSize
    · rw [piece_empty_high fm K p q hq, List.append_nil]
      have hbc : fm.piece K q r = fm.piece K p r :=
        (piece_congr_lo fm K p q r hpq hq).symm
      rw [← List.append_assoc, ih, hbc]
    · have hB : ((List.range K).map fun k => fm.piece k q r).flatten = [] := by
        apply flatten_map_nil
        intro k hk
        apply piece_empty_low
        have hkK : k < K := List.mem_range.mp hk
        calc (k + 1) * fm.blockSize ≤ K * fm.blockSize := by
              apply Nat.mul_le_mul_right
              omega
          _ ≤ q := by omega
      have hAC : ((List.range K).map fun k => fm.piece k p q).flatten =
          ((List.range K).map fun k => fm.piece k p r).flatten := by
        apply congrArg
        apply List.map_congr_left
        intro k hk
        have hkK : k < K := List.mem_range.mp hk
        apply piece_congr_hi fm k p q r _ hqr
        calc (k + 1) * fm.blockSize ≤ K * fm.blockSize := by
              apply Nat.mul_le_mul_right
              omega
          _ ≤ q := by omega
      rw [hB, List.nil_append, List.append_assoc,
        piece_split fm K p q r hpq hqr, hAC]

theorem segRead_split (fm : FileModel) (p q r : Nat) (hpq : p ≤ q) (hqr : q ≤ r) :
    fm.segRead p q ++ fm.segRead q r = fm.segRead p r :=
  seg_split_aux fm p q r hpq hqr fm.blockCount

theorem size_le_blockCount_mul (fm : FileModel) (hbs : 0 < fm.blockSize) :
    fm.size ≤ fm.blockCount * fm.blockSize := by
  unfold FileModel.blockCount
  by_cases hn : fm.size = 0
  · simp [hn]
  · have h2 : fm.size + fm.blockSize - 1 <
        ((fm.size + fm.blockSize - 1) / fm.blockSize + 1) * fm.blockSize :=
      (Nat.div_lt_iff_lt_mul hbs).mp (by omega)
    rw [show ((fm.size + fm.blockSize - 1) / fm.blockSize + 1) * fm.blockSize =
      (fm.size + fm.blockSize - 1) / fm.blockSize * fm.blockSize + fm.blockSize
      by ring] at h2
    omega

theorem lt_blockCount (fm : FileModel) (hbs : 0 < fm.blockSize) (k : Nat)
    (h : k * fm.blockSize < fm.size) : k < fm.blockCount := by
  by_contra hk
  have h1 : fm.blockCount * fm.blockSize ≤ k * fm.blockSize :=
    Nat.mul_le_mul_right _ (by omega)
  have h2 := size_le_blockCount_mul fm hbs
  omega

theorem blockBuf_length_le (fm : FileModel) (vals : List Nat) (fragN : Nat)
    (hbs : 0 < fm.blockSize)
    (hrun : fm.runlist = (vals.map fun v => ((some v : Option Nat), 1)) ++
      (if fragN = 0 then [] else [((none : Option Nat), fragN)]))
    (hsz : if fragN = 0 then
        fm.size ≤ vals.length * fm.blockSize ∧
          vals.length * fm.blockSize < fm.size + fm.blockSize
      else fragN < fm.blockSize ∧ fm.size = vals.length * fm.blockSize + fragN)
    (k : Nat) (hk : (k + 1) * fm.blockSize ≤ fm.size) :
    (fm.blockBuf k).length ≤ fm.blockSize := by
  rw [blockBuf_eq_payloadTake fm vals fragN hbs hrun hsz k hk]
  exact payloadTake_length_le fm vals k

theorem piece_full (fm : FileModel) (vals : List Nat) (fragN : Nat)
    (hbs : 0 < fm.blockSize)
    (hrun : fm.runlist = (vals.map fun v => ((some v : Option Nat), 1)) ++
      (if fragN = 0 then [] else [((none : Option Nat), fragN)]))
    (hsz : if fragN = 0 then
        fm.size ≤ vals.length * fm.blockSize ∧
          vals.length * fm.blockSize < fm.size + fm.blockSize
      else fragN < fm.blockSize ∧ fm.size = vals.length * fm.blockSize + fragN)
    (k p q : Nat) (hpk : p ≤ k * fm.blockSize) (hkq : (k + 1) * fm.blockSize ≤ q)
    (hks : (k + 1) * fm.blockSize ≤ fm.size) :
    fm.piece k p q = fm.blockBuf k := by
  have hx : (k + 1) * fm.blockSize = k * fm.blockSize + fm.blockSize := by ring
  unfold FileModel.piece
  rw [show max p (k * fm.blockSize) - k * fm.blockSize = 0 by omega]
  rw [show min q ((k + 1) * fm.blockSize) - k * fm.blockSize = fm.blockSize by omega]
  rw [List.drop_zero]
  exact List.take_of_length_le (blockBuf_length_le fm vals fragN hbs hrun hsz k hks)

theorem streamTail_eq (fm : FileModel) (vals : List Nat) (fragN : Nat)
    (hbs : 0 < fm.blockSize)
    (hrun : fm.runlist = (vals.map fun v => ((some v : Option Nat), 1)) ++
      (if fragN = 0 then [] else [((none : Option Nat), fragN)]))
    (hsz : if fragN = 0 then
        fm.size ≤ vals.length * fm.blockSize ∧
          vals.length * fm.blockSize < fm.size + fm.blockSize
      else fragN < fm.blockSize ∧ fm.size = vals.length * fm.blockSize + fragN)
    (p n : Nat) (hal : fm.blockSize ∣ p) (hpn : p + n ≤ fm.size) :
    fm.streamTail p n = fm.segRead p (p + n) := by
  rcases hal with ⟨j, hj⟩
  have hj' : p = j * fm.blockSize := by rw [hj, mul_comm]
  by_cases hn0 : n = 0
  · subst hn0
    rw [Nat.add_zero, segRead_self]
    unfold FileModel.streamTail
    simp
  have hdm : n / fm.blockSize * fm.blockSize + n % fm.blockSize = n := by
    rw [mul_comm]
    exact Nat.div_add_mod n fm.blockSize
  have hremlt : n % fm.blockSize < fm.blockSize := Nat.mod_lt _ hbs
  have hcnt1 : n % fm.blockSize = 0 → 1 ≤ n / fm.blockSize := by
    intro hr
    rcases Nat.eq_zero_or_pos (n / fm.blockSize) with hz | hz
    · rw [hz] at hdm
      simp at hdm
      omega
    · omega
  -- upper bound of the covering window
  have hwinK : j + n / fm.blockSize + (if n % fm.blockSize = 0 then 0 else 1) ≤
      fm.blockCount := by
    by_cases hr : n % fm.blockSize = 0
    · rw [if_pos hr]
      have h1 := hcnt1 hr
      have hlt : (j + n / fm.blockSize - 1) * fm.blockSize < fm.size := by
        have hstep : (j + n / fm.blockSize - 1) * fm.blockSize <
            (j + n / fm.blockSize) * fm.blockSize := by
          apply (Nat.mul_lt_mul_right hbs).mpr
          omega
        have hx : (j + n / fm.blockSize) * fm.blockSize =
            j * fm.blockSize + n / fm.blockSize * fm.blockSize := by ring
        omega
      have := lt_blockCount fm hbs _ hlt
      omega
    · rw [if_neg hr]
      have hlt : (j + n / fm.blockSize) * fm.blockSize < fm.size := by
        have hx : (j + n / fm.blockSize) * fm.blockSize =
            j * fm.blockSize + n / fm.blockSize * fm.blockSize := by ring
        omega
      have := lt_blockCount fm hbs _ hlt
      omega
  -- restrict the canonical decomposition to the covering window
  have hwin : fm.segRead p (p + n) =
      ((List.range' j (n / fm.blockSize +
          (if n % fm.blockSize = 0 then 0 else 1))).map
        fun k => fm.piece k p (p + n)).flatten := by
    unfold FileModel.segRead
    have h := flatten_range_window (fun k => fm.piece k p (p + n)) fm.blockCount j
      (j + (n / fm.blockSize + (if n % fm.blockSize = 0 then 0 else 1)))
      (fun k hk => piece_empty_low fm k p (p + n) (by
        calc (k + 1) * fm.blockSize ≤ j * fm.blockSize :=
              Nat.mul_le_mul_right _ (by omega)
          _ = p := hj'.symm))
      (fun k hk => piece_empty_high fm k p (p + n) (by
        have hx1 : (j + n / fm.blockSize) * fm.blockSize =
            j * fm.blockSize + n / fm.blockSize * fm.blockSize := by ring
        by_cases hr : n % fm.blockSize = 0
        · rw [if_pos hr] at hk
          have h2 : (j + n / fm.blockSize) * fm.blockSize ≤ k * fm.blockSize :=
            Nat.mul_le_mul_right _ (by omega)
          omega
        · rw [if_neg hr] at hk
          have h2 : (j + n / fm.blockSize + 1) * fm.blockSize ≤ k * fm.blockSize :=
            Nat.mul_le_mul_right _ (by omega)
          have hx2 : (j + n / fm.blockSize + 1) * fm.blockSize =
              j * fm.blockSize + n / fm.blockSize * fm.blockSize + fm.blockSize := by
            ring
          omega))
      (Nat.le_add_right j _) (by rw [← Nat.add_assoc]; exact hwinK)
    rw [h, Nat.add_sub_cancel_left]
  rw [hwin]
  -- split the window into the aligned middle and the remainder block
  have hsplitw : List.range' j (n / fm.blockSize +
      (if n % fm.blockSize = 0 then 0 else 1)) =
      List.range' j (n / fm.blockSize) ++
        List.range' (j + n / fm.blockSize)
          (if n % fm.blockSize = 0 then 0 else 1) := by
    have h := List.range'_append j (n / fm.blockSize)
      (if n % fm.blockSize = 0 then 0 else 1) 1
    simp only [one_mul] at h
    rw [Nat.add_comm (n / fm.blockSize) _, ← h]
  rw [hsplitw, List.map_append, List.flatten_append]
  -- the middle: full blocks
  have hmid : ((List.range' j (n / fm.blockSize)).map
      fun k => fm.piece k p (p + n)).flatten =
      (if n / fm.blockSize ≠ 0 then
        fm.fsRead ((p : Nat) : Int) ((n / fm.blockSize * fm.blockSize : Nat) : Int)
      else []) := by
    by_cases hc : n / fm.blockSize = 0
    · simp [hc]
    · rw [if_pos hc]
      have hcong : ((List.range' j (n / fm.blockSize)).map
          fun k => fm.piece k p (p + n)).flatten =
          ((List.range' j (n / fm.blockSize)).map fun k => fm.blockBuf k).flatten := by
        apply congrArg
        apply List.map_congr_left
        intro k hk
        have hkmem := List.mem_range'_1.mp hk
        apply piece_full fm vals fragN hbs hrun hsz
        · rw [hj']
          exact Nat.mul_le_mul_right _ (by omega)
        · have h2 : (k + 1) * fm.blockSize ≤
              (j + n / fm.blockSize) * fm.blockSize :=
            Nat.mul_le_mul_right _ (by omega)
          have hx : (j + n / fm.blockSize) * fm.blockSize =
              j * fm.blockSize + n / fm.blockSize * fm.blockSize := by ring
          omega
        · have h2 : (k + 1) * fm.blockSize ≤
              (j + n / fm.blockSize) * fm.blockSize :=
            Nat.mul_le_mul_right _ (by omega)
          have hx : (j + n / fm.blockSize) * fm.blockSize =
              j * fm.blockSize + n / fm.blockSize * fm.blockSize := by ring
          omega
      rw [hcong]
      rw [← fsRead_aligned_multi fm vals fragN hbs hrun hsz j (n / fm.blockSize) (by
        have hx : (j + n / fm.blockSize) * fm.blockSize =
            j * fm.blockSize + n / fm.blockSize * fm.blockSize := by ring
        omega)]
      rw [← hj']
  -- the remainder: a slice of the next block's buffer
  have htail : ((List.range' (j + n / fm.blockSize)
      (if n % fm.blockSize = 0 then 0 else 1)).map
      fun k => fm.piece k p (p + n)).flatten =
      (if n % fm.blockSize ≠ 0 then
        (fm.fsRead ((p + n / fm.blockSize * fm.blockSize : Nat) : Int)
          ((fm.blockSize : Nat) : Int)).take (n % fm.blockSize)
      else []) := by
    by_cases hr : n % fm.blockSize = 0
    · simp [hr]
    · rw [if_neg hr, if_pos hr]
      have h1 : List.range' (j + n / fm.blockSize) 1 = [j + n / fm.blockSize] := by
        simp [List.range']
      rw [h1]
      simp only [List.map_cons, List.map_nil, List.flatten_cons, List.flatten_nil,
        List.append_nil]
      unfold FileModel.piece
      have hx : (j + n / fm.blockSize + 1) * fm.blockSize =
          (j + n / fm.blockSize) * fm.blockSize + fm.blockSize := by ring
      have hx2 : (j + n / fm.blockSize) * fm.blockSize =
          j * fm.blockSize + n / fm.blockSize * fm.blockSize := by ring
      rw [show max p ((j + n / fm.blockSize) * fm.blockSize) -
          (j + n / fm.blockSize) * fm.blockSize = 0 by omega]
      rw [show min (p + n) ((j + n / fm.blockSize + 1) * fm.blockSize) -
          (j + n / fm.blockSize) * fm.blockSize = n % fm.blockSize by omega]
      rw [List.drop_zero]
      unfold FileModel.blockBuf
      rw [show (j + n / fm.blockSize) * fm.blockSize =
        p + n / fm.blockSize * fm.blockSize by omega]
  rw [hmid, htail]
  unfold FileModel.streamTail
  rfl

theorem streamTail_zero (fm : FileModel) (p : Nat) : fm.streamTail p 0 = [] := by
  unfold FileModel.streamTail
  simp

theorem streamRead_eq (fm : FileModel) (vals : List Nat) (fragN : Nat)
    (hbs : 0 < fm.blockSize)
    (hrun : fm.runlist = (vals.map fun v => ((some v : Option Nat), 1)) ++
      (if fragN = 0 then [] else [((none : Option Nat), fragN)]))
    (hsz : if fragN = 0 then
        fm.size ≤ vals.length * fm.blockSize ∧
          vals.length * fm.blockSize < fm.size + fm.blockSize
      else fragN < fm.blockSize ∧ fm.size = vals.length * fm.blockSize + fragN)
    (p n : Nat) (hpn : p + n ≤ fm.size) :
    fm.streamRead p n = fm.segRead p (p + n) := by
  unfold FileModel.streamRead
  dsimp only
  by_cases hps : fm.size ≤ p
  · rw [if_pos hps]
    have hn : n = 0 := by omega
    rw [hn, Nat.add_zero, segRead_self]
  · rw [if_neg hps]
    have hmin : min n (fm.size - p) = n := by omega
    rw [hmin]
    by_cases hpa : p = fm.blockSize * (p / fm.blockSize)
    · rw [if_neg (not_not_intro hpa)]
      exact streamTail_eq fm vals fragN hbs hrun hsz p n ⟨p / fm.blockSize, hpa⟩ hpn
    · rw [if_pos hpa]
      have hpale : fm.blockSize * (p / fm.blockSize) ≤ p := by
        rw [mul_comm]
        exact Nat.div_mul_le_self p fm.blockSize
    
      have hpalt : p < fm.blockSize * (p / fm.blockSize) + fm.blockSize := by
        have h1 : p < (p / fm.blockSize + 1) * fm.blockSize :=
          (Nat.div_lt_iff_lt_mul hbs).mp (by omega)
        have h2 : (p / fm.blockSize + 1) * fm.blockSize =
            fm.blockSize * (p / fm.blockSize) + fm.blockSize := by ring
        omega
      have hjK : p / fm.blockSize + 1 ≤ fm.blockCount := by
        apply lt_blockCount fm hbs
        have : p / fm.blockSize * fm.blockSize = fm.blockSize * (p / fm.blockSize) := by
          ring
        omega
      -- the head slice equals the canonical slice of its single block
      have hhead : ∀ m : Nat, m ≤ fm.blockSize - (p - fm.blockSize * (p / fm.blockSize)) →
          ((fm.fsRead ((fm.blockSize * (p / fm.blockSize) : Nat) : Int)
            ((fm.blockSize : Nat) : Int)).take
              ((p - fm.blockSize * (p / fm.blockSize)) + m)).drop
            (p - fm.blockSize * (p / fm.blockSize)) =
          fm.segRead p (p + m) := by
        intro m hm
        have hwin : fm.segRead p (p + m) =
            ((List.range' (p / fm.blockSize) 1).map
              fun k => fm.piece k p (p + m)).flatten := by
          unfold FileModel.segRead
          have h := flatten_range_window (fun k => fm.piece k p (p + m))
            fm.blockCount (p / fm.blockSize) (p / fm.blockSize + 1)
            (fun k hk => piece_empty_low fm k p (p + m) (by
              have h1 : (k + 1) * fm.blockSize ≤
                  (p / fm.blockSize) * fm.blockSize :=
                Nat.mul_le_mul_right _ (by omega)
              have h2 : (p / fm.blockSize) * fm.blockSize =
                  fm.blockSize * (p / fm.blockSize) := by ring
              omega))
            (fun k hk => piece_empty_high fm k p (p + m) (by
              have h1 : (p / fm.blockSize + 1) * fm.blockSize ≤ k * fm.blockSize :=
                Nat.mul_le_mul_right _ hk
              have h2 : (p / fm.blockSize + 1) * fm.blockSize =
                  fm.blockSize * (p / fm.blockSize) + fm.blockSize := by ring
              omega))
            (by omega) hjK
          rw [h, Nat.add_sub_cancel_left]
        rw [hwin]
        have h1 : List.range' (p / fm.blockSize) 1 = [p / fm.blockSize] := by
          simp [List.range']
        rw [h1]
        simp only [List.map_cons, List.map_nil, List.flatten_cons, List.flatten_nil,
          List.append_nil]
        unfold FileModel.piece
        have hx : (p / fm.blockSize + 1) * fm.blockSize =
            fm.blockSize * (p / fm.blockSize) + fm.blockSize := by ring
        have hx2 : (p / fm.blockSize) * fm.blockSize =
            fm.blockSize * (p / fm.blockSize) := by ring
        rw [show max p (p / fm.blockSize * fm.blockSize) -
            p / fm.blockSize * fm.blockSize =
            p - fm.blockSize * (p / fm.blockSize) by omega]
        rw [show min (p + m) ((p / fm.blockSize + 1) * fm.blockSize) -
            p / fm.blockSize * fm.blockSize =
            (p - fm.blockSize * (p / fm.blockSize)) + m by omega]
        unfold FileModel.blockBuf
        rw [show p / fm.blockSize * fm.blockSize =
          fm.blockSize * (p / fm.blockSize) by ring]
      by_cases hsmall : n ≤ fm.blockSize - (p - fm.blockSize * (p / fm.blockSize))
      · have hblm : min n (fm.blockSize - (p - fm.blockSize * (p / fm.blockSize))) =
            n := by omega
        rw [hblm]
        rw [Nat.sub_self, streamTail_zero, List.append_nil]
        exact hhead n hsmall
      · have hblm : min n (fm.blockSize - (p - fm.blockSize * (p / fm.blockSize))) =
            fm.blockSize - (p - fm.blockSize * (p / fm.blockSize)) := by omega
        rw [hblm]
        have hp' : p + (fm.blockSize - (p - fm.blockSize * (p / fm.blockSize))) =
            fm.blockSize * (p / fm.blockSize) + fm.blockSize := by omega
        have htail := streamTail_eq fm vals fragN hbs hrun hsz
          (p + (fm.blockSize - (p - fm.blockSize * (p / fm.blockSize))))
          (n - (fm.blockSize - (p - fm.blockSize * (p / fm.blockSize))))
          (by rw [hp']; exact ⟨p / fm.blockSize + 1, by ring⟩)
          (by omega)
        rw [htail]
        rw [hhead (fm.blockSize - (p - fm.blockSize * (p / fm.blockSize))) (by omega)]
        rw [show p + (fm.blockSize - (p - fm.blockSize * (p / fm.blockSize))) +
            (n - (fm.blockSize - (p - fm.blockSize * (p / fm.blockSize)))) =
            p + n by omega]
        exact segRead_split fm p _ (p + n) (by omega) (by omega)

theorem chunkReads_eq_segRead (fm : FileModel) (vals : List Nat) (fragN : Nat)
    (hbs : 0 < fm.blockSize)
    (hrun : fm.runlist = (vals.map fun v => ((some v : Option Nat), 1)) ++
      (if fragN = 0 then [] else [((none : Option Nat), fragN)]))
    (hsz : if fragN = 0 then
        fm.size ≤ vals.length * fm.blockSize ∧
          vals.length * fm.blockSize < fm.size + fm.blockSize
      else fragN < fm.blockSize ∧ fm.size = vals.length * fm.blockSize + fragN) :
    ∀ (ns : List Nat) (s : Nat), s + ns.sum ≤ fm.size →
      fm.chunkReads s ns = fm.segRead s (s + ns.sum) := by
  intro ns
  induction ns with
  | nil =>
    intro s _
    show ([] : List Nat) = fm.segRead s (s + List.sum [])
    rw [List.sum_nil, Nat.add_zero, segRead_self]
  | cons n ns ih =>
    intro s h
    rw [List.sum_cons] at h
    show fm.streamRead s n ++ fm.chunkReads (s + n) ns = _
    rw [ih (s + n) (by omega)]
    rw [streamRead_eq fm vals fragN hbs hrun hsz s n (by omega)]
    rw [show s + n + ns.sum = s + (n :: ns).sum by simp; omega]
    rw [show s + (n :: ns).sum = s + n + ns.sum by simp; omega] at *
    exact segRead_split fm s (s + n) (s + n + ns.sum) (by omega) (by omega)

theorem leU32list_length (data : List Nat) (blocks : Nat) :
    (leU32list data blocks).length = blocks := by
  simp [leU32list]

theorem ofInode_Invariant (sq : SquashFS) (fuel : Nat) (i : INode) (fm : FileModel)
    (hpow : sq.sb.block_size = 2 ^ sq.sb.block_log)
    (hok : FileStream.ofInode sq fuel i = .ok fm) : fm.Invariant := by
  have hbs : 0 < sq.sb.block_size := by
    rw [hpow]
    positivity
  unfold FileStream.ofInode at hok
  split at hok
  · simp at hok
  · next hfile =>
    have hf : INode.is_file sq i = true := by
      revert hfile
      simp
    rw [Except.ok.injEq] at hok
    subst hok
    have hsize : (INode.size sq i).getD 0 = (INode.header sq i).file_size := by
      unfold INode.size
      rw [if_pos (by simp [hf])]
      rfl
    refine ⟨hbs, ?_⟩
    show ∃ (vals : List Nat) (fragN : Nat),
      INode.block_list sq fuel i = _ ∧ _
    unfold INode.block_list
    dsimp only
    by_cases hfrag : (INode.header sq i).fragment = SQUASHFS_INVALID_FRAG
    · rw [if_pos hfrag]
      dsimp only
      refine ⟨leU32list ((sq.read_metadata fuel (sq.sb.inode_table_start + i.block)
        (i.offset + sq.headerLenOf i.block i.offset)
        (((INode.header sq i).file_size + sq.sb.block_size - 1) >>>
          sq.sb.block_log * 4)).2.2)
        (((INode.header sq i).file_size + sq.sb.block_size - 1) >>>
          sq.sb.block_log), 0, ?_, ?_⟩
      · by_cases hb0 : ((INode.header sq i).file_size + sq.sb.block_size - 1) >>>
            sq.sb.block_log = 0
        · rw [if_neg (by simpa using hb0)]
          simp [hb0, leU32list]
        · rw [if_pos (by simpa using hb0)]
          simp
      · rw [if_pos rfl]
        rw [leU32list_length, hsize]
        rw [hpow, Nat.shiftRight_eq_div_pow]
        set m := 2 ^ sq.sb.block_log with hm
        set fs := (INode.header sq i).file_size with hfs
        have hmpos : 0 < m := by positivity
        have hble : (fs + m - 1) / m * m ≤ fs + m - 1 := Nat.div_mul_le_self _ _
        have hblt : fs + m - 1 < ((fs + m - 1) / m + 1) * m :=
          (Nat.div_lt_iff_lt_mul hmpos).mp (by omega)
        have hx : ((fs + m - 1) / m + 1) * m = (fs + m - 1) / m * m + m := by ring
        constructor <;> omega
    · rw [if_neg hfrag]
      dsimp only
      refine ⟨leU32list ((sq.read_metadata fuel (sq.sb.inode_table_start + i.block)
        (i.offset + sq.headerLenOf i.block i.offset)
        ((INode.header sq i).file_size / sq.sb.block_size * 4)).2.2)
        ((INode.header sq i).file_size / sq.sb.block_size),
        (INode.header sq i).file_size % sq.sb.block_size, ?_, ?_⟩
      · by_cases hb0 : (INode.header sq i).file_size / sq.sb.block_size = 0
        · rw [if_neg (by simpa using hb0)]
          simp [hb0, leU32list]
        · rw [if_pos (by simpa using hb0)]
          simp
      · rw [leU32list_length, hsize]
        set m := sq.sb.block_size with hm
        set fs := (INode.header sq i).file_size with hfs
        have hdm : fs / m * m + fs % m = fs := by
          rw [mul_comm]
          exact Nat.div_add_mod fs m
        by_cases hr : fs % m = 0
        · rw [if_pos hr]
          constructor <;> omega
        · rw [if_neg hr]
          have := Nat.mod_lt fs hbs
          constructor <;> omega

/-- C1: for a regular file inode, reading the entire stream with a
single `read()` equals the concatenation of reads over any chunk
decomposition of `[0, size)` performed through the seek/read layer —
including files whose tail is stored in a fragment (the fragment run of
the block list is covered by the run-list shape the proof carries). -/
theorem c1_chunked_reads_eq_single_read (sq : SquashFS) (fuel : Nat) (i : INode)
    (fm : FileModel) (ns : List Nat)
    (hpow : sq.sb.block_size = 2 ^ sq.sb.block_log)
    (hok : FileStream.ofInode sq fuel i = .ok fm)
    (hsum : ns.sum = fm.size) :
    fm.chunkReads 0 ns = fm.streamRead 0 fm.size := by
  obtain ⟨hbs, vals, fragN, hrun, hsz⟩ := ofInode_Invariant sq fuel i fm hpow hok
  rw [chunkReads_eq_segRead fm vals fragN hbs hrun hsz ns 0 (by omega)]
  rw [streamRead_eq fm vals fragN hbs hrun hsz 0 fm.size (by omega)]
  rw [hsum, Nat.zero_add]

/-- Witness for `c1_chunked_reads_eq_single_read`: the 5-byte file of
`sqC1` (one sparse block of 4 bytes plus a 1-byte fragment tail), read
as chunks of 2 and 3 bytes. -/
theorem c1_witness :
    sqC1.sb.block_size = 2 ^ sqC1.sb.block_log ∧
    FileStream.ofInode sqC1 3 nodeZero = .ok fmC1 ∧
    ([2, 3] : List Nat).sum = fmC1.size ∧
    fmC1.chunkReads 0 [2, 3] = fmC1.streamRead 0 fmC1.size :=
  ⟨by decide, rfl, by decide,
    c1_chunked_reads_eq_single_read sqC1 3 nodeZero fmC1 [2, 3] (by decide) rfl
      (by decide)⟩
